import Mathlib

/-!
Verification development for the `lbasedb` storage engine.

The Rust sources are shallowly embedded: bytes are `Nat` values (< 256 by
construction of every encoder), machine integers are `Int` with explicit
wrap-around arithmetic, `f64`/`f32` values are represented by their IEEE-754
bit patterns (`Nat` below `2^64` / `2^32`), fallible operations return
`Except`, and `HashMap`s are association lists (`AList` below).  Rust panics
(`unwrap` on `None`/`Err`) are modelled by the distinguished error
`IOErr.panicked`.
-/

set_option maxRecDepth 10000
set_option exponentiation.threshold 5000

/-- Error kinds used across the embedding, mirroring `tokio::io::ErrorKind`
values raised by the sources, plus `panicked` for Rust panics. -/
inductive IOErr where
  | notFound
  | alreadyExists
  | unexpectedEof
  | invalidData
  | invalidInput
  | ioFailure
  | panicked
  deriving DecidableEq, Repr

/-- A list of `n` zero bytes (`vec![0u8; n]`). -/
def zeros (n : Nat) : List Nat := List.replicate n 0

@[simp] theorem zeros_length (n : Nat) : (zeros n).length = n := by
  simp [zeros]

/-- Little-endian byte encoding of `v` on `n` bytes (how the Rust sources lay
scalar values out in memory; `utils.rs::to_bytes` reinterprets the value's
memory, which for integers on the reference platform is little-endian). -/
def natToLE : Nat → Nat → List Nat
  | 0, _ => []
  | n + 1, v => (v % 256) :: natToLE n (v / 256)

/-- Little-endian byte decoding (inverse of `natToLE`). -/
def leToNat : List Nat → Nat
  | [] => 0
  | b :: bs => b + 256 * leToNat bs

@[simp] theorem natToLE_length (n v : Nat) : (natToLE n v).length = n := by
  induction n generalizing v with
  | zero => rfl
  | succ k ih => simp [natToLE, ih]

theorem leToNat_natToLE (n v : Nat) : leToNat (natToLE n v) = v % 256 ^ n := by
  induction n generalizing v with
  | zero => simp [natToLE, leToNat]; omega
  | succ k ih =>
      have h256 : 0 < 256 := by norm_num
      calc leToNat (natToLE (k + 1) v)
          = v % 256 + 256 * (v / 256 % 256 ^ k) := by simp [natToLE, leToNat, ih]
        _ = v % (256 * 256 ^ k) := (Nat.mod_mul).symm
        _ = v % 256 ^ (k + 1) := by rw [pow_succ, mul_comm]

/-- `leToNat` of an `n`-byte encoding is below `256^n` when `v` is. -/
theorem leToNat_natToLE_of_lt {n v : Nat} (h : v < 256 ^ n) :
    leToNat (natToLE n v) = v := by
  rw [leToNat_natToLE]; exact Nat.mod_eq_of_lt h

/-! ### Machine integers

`i64`/`i32` values are `Int`s; the memory image written by
`utils.rs::to_bytes` is the two's-complement little-endian byte string, i.e.
the LE bytes of `x mod 2^w`. -/

/-- Two's-complement little-endian bytes of an `i64` value. -/
def i64ToBytes (x : Int) : List Nat := natToLE 8 (x % (2 ^ 64 : Int)).toNat

/-- Two's-complement little-endian bytes of an `i32` value. -/
def i32ToBytes (x : Int) : List Nat := natToLE 4 (x % (2 ^ 32 : Int)).toNat

/-- Decode 8 little-endian bytes as an `i64` (sign bit splits the range). -/
def bytesToI64 (bs : List Nat) : Int :=
  if (leToNat bs : Int) < 2 ^ 63 then leToNat bs else leToNat bs - 2 ^ 64

/-- Decode 4 little-endian bytes as an `i32`. -/
def bytesToI32 (bs : List Nat) : Int :=
  if (leToNat bs : Int) < 2 ^ 31 then leToNat bs else leToNat bs - 2 ^ 32

/-- The value denoted by the Rust cast `x as i32` (wrap to 32 bits, two's
complement). -/
def asI32 (x : Int) : Int := (x + 2 ^ 31) % 2 ^ 32 - 2 ^ 31

theorem i64_roundtrip (x : Int) (h1 : -(2 ^ 63) ≤ x) (h2 : x < 2 ^ 63) :
    bytesToI64 (i64ToBytes x) = x := by
  unfold bytesToI64 i64ToBytes
  rw [leToNat_natToLE_of_lt (by omega)]
  split <;> omega

theorem i32_decode_asI32 (x : Int) :
    bytesToI32 (i32ToBytes x) = asI32 x := by
  unfold bytesToI32 i32ToBytes asI32
  rw [leToNat_natToLE_of_lt (by omega)]
  split <;> omega

/-! ### Association lists

`std::collections::HashMap` is embedded as an association list.  Iteration
order is the insertion order of the list; all hash-map operations used by the
sources (lookup, insert-or-replace, remove) are order-insensitive, and every
fan-out loop in `conn.rs` touches pairwise distinct entries, so an
association list is a faithful model of the map contents. -/

/-- `HashMap::get`. -/
def alistLookup {K V : Type} [DecidableEq K] : List (K × V) → K → Option V
  | [], _ => none
  | (k, v) :: rest, key => if k = key then some v else alistLookup rest key

/-- `HashMap::insert` (replace the binding if the key is present, else append). -/
def alistInsert {K V : Type} [DecidableEq K] : List (K × V) → K → V → List (K × V)
  | [], key, val => [(key, val)]
  | (k, v) :: rest, key, val =>
      if k = key then (key, val) :: rest else (k, v) :: alistInsert rest key val

/-- `HashMap::remove`. -/
def alistErase {K V : Type} [DecidableEq K] : List (K × V) → K → List (K × V)
  | [], _ => []
  | (k, v) :: rest, key => if k = key then rest else (k, v) :: alistErase rest key

/-- Keys of the map (`HashMap::keys`). -/
def alistKeys {K V : Type} (m : List (K × V)) : List K := m.map Prod.fst

theorem alistLookup_insert {K V : Type} [DecidableEq K]
    (m : List (K × V)) (k k' : K) (v : V) :
    alistLookup (alistInsert m k v) k' =
      if k = k' then some v else alistLookup m k' := by
  induction m with
  | nil => simp [alistInsert, alistLookup]
  | cons p rest ih =>
      obtain ⟨a, b⟩ := p
      by_cases hak : a = k
      · subst hak
        by_cases hk' : a = k' <;> simp [alistInsert, alistLookup, hk']
      · by_cases hak' : a = k'
        · subst hak'
          have hka : k ≠ a := fun h => hak h.symm
          simp [alistInsert, alistLookup, hak, hka]
        · simp [alistInsert, alistLookup, hak, hak', ih]

theorem alistLookup_insert_self {K V : Type} [DecidableEq K]
    (m : List (K × V)) (k : K) (v : V) :
    alistLookup (alistInsert m k v) k = some v := by
  simp [alistLookup_insert]

theorem alistLookup_insert_ne {K V : Type} [DecidableEq K]
    (m : List (K × V)) {k k' : K} (v : V) (h : k ≠ k') :
    alistLookup (alistInsert m k v) k' = alistLookup m k' := by
  simp [alistLookup_insert, h]

/-! ### Base64 (standard alphabet, canonical padding)

Model of the `base64` crate's `BASE64_STANDARD` engine as configured by the
sources: encoding emits padding; decoding requires canonical padding and
rejects non-zero trailing bits. -/

/-- The standard base64 alphabet. -/
def b64alphabet : List Char :=
  "ABCDEFGHIJKLMNOPQRSTUVWXYZabcdefghijklmnopqrstuvwxyz0123456789+/".data

/-- Character for a 6-bit value. -/
def b64char (n : Nat) : Char :=
  match b64alphabet.get? n with
  | some c => c
  | none => 'A'

/-- Index of a character in a list (first occurrence). -/
def findIdx64 (c : Char) : List Char → Option Nat
  | [] => none
  | a :: rest => if a = c then some 0 else (findIdx64 c rest).map (· + 1)

/-- 6-bit value of an alphabet character (`none` for characters outside the
alphabet, in particular for `'='`). -/
def b64val (c : Char) : Option Nat := findIdx64 c b64alphabet

/-- Base64-encode a byte list (bytes < 256), emitting `=` padding. -/
def b64encode : List Nat → List Char
  | [] => []
  | [a] => [b64char (a / 4), b64char (a % 4 * 16), '=', '=']
  | [a, b] =>
      [b64char (a / 4), b64char (a % 4 * 16 + b / 16), b64char (b % 16 * 4), '=']
  | a :: b :: c :: rest =>
      b64char (a / 4) :: b64char (a % 4 * 16 + b / 16) ::
        b64char (b % 16 * 4 + c / 64) :: b64char (c % 64) :: b64encode rest

/-- Base64-decode (canonical: length a multiple of 4, padding only at the
end, zero trailing bits). Returns `none` on any invalid input. -/
def b64decode : List Char → Option (List Nat)
  | [] => some []
  | a :: b :: c :: d :: rest =>
      if c = '=' ∧ d = '=' ∧ rest = [] then
        (b64val a).bind fun va =>
        (b64val b).bind fun vb =>
        if vb % 16 = 0 then some [va * 4 + vb / 16] else none
      else if d = '=' ∧ rest = [] then
        (b64val a).bind fun va =>
        (b64val b).bind fun vb =>
        (b64val c).bind fun vc =>
        if vc % 4 = 0 then some [va * 4 + vb / 16, vb % 16 * 16 + vc / 4]
        else none
      else
        (b64val a).bind fun va =>
        (b64val b).bind fun vb =>
        (b64val c).bind fun vc =>
        (b64val d).bind fun vd =>
        (b64decode rest).map fun tail =>
          (va * 4 + vb / 16) :: (vb % 16 * 16 + vc / 4) :: (vc % 4 * 64 + vd) :: tail
  | _ => none

theorem findIdx64_get? (c : Char) (l : List Char) (i : Nat)
    (h : findIdx64 c l = some i) : l.get? i = some c := by
  induction l generalizing i with
  | nil => simp [findIdx64] at h
  | cons a rest ih =>
      by_cases hac : a = c
      · simp [findIdx64, hac] at h
        subst hac h
        rfl
      · simp [findIdx64, hac] at h
        obtain ⟨j, hj, rfl⟩ := h
        simpa using ih j hj

theorem b64val_lt (c : Char) (v : Nat) (h : b64val c = some v) : v < 64 := by
  have hg := findIdx64_get? c b64alphabet v h
  have : v < b64alphabet.length := by
    by_contra hv
    rw [List.get?_eq_none.mpr (by omega)] at hg
    exact Option.noConfusion hg
  simpa [b64alphabet] using this

theorem b64char_b64val (c : Char) (v : Nat) (h : b64val c = some v) :
    b64char v = c := by
  have hg := findIdx64_get? c b64alphabet v h
  rw [List.get?_eq_getElem?] at hg
  simp [b64char, List.get?_eq_getElem?, hg]

/-- Canonical decoding: whatever `b64decode` accepts re-encodes to itself. -/
theorem b64encode_b64decode : ∀ (cs : List Char) (bs : List Nat),
    b64decode cs = some bs → b64encode bs = cs
  | [], bs, h => by
      injection h with h1
      rw [← h1]
      rfl
  | [a], bs, h => Option.noConfusion ((show b64decode [a] = none from rfl) ▸ h)
  | [a, b], bs, h =>
      Option.noConfusion ((show b64decode [a, b] = none from rfl) ▸ h)
  | [a, b, c], bs, h =>
      Option.noConfusion ((show b64decode [a, b, c] = none from rfl) ▸ h)
  | a :: b :: c :: d :: rest, bs, h => by
      rw [b64decode] at h
      by_cases h2 : c = '=' ∧ d = '=' ∧ rest = []
      · obtain ⟨hc, hd, hr⟩ := h2
        subst hc
        subst hd
        subst hr
        rw [if_pos ⟨rfl, rfl, rfl⟩] at h
        cases hva : b64val a with
        | none => simp [hva] at h
        | some va =>
          cases hvb : b64val b with
          | none => simp [hva, hvb] at h
          | some vb =>
            have hva64 := b64val_lt a va hva
            have hvb64 := b64val_lt b vb hvb
            simp [hva, hvb] at h
            obtain ⟨hmod, rfl⟩ := h
            have e1 : (va * 4 + vb / 16) / 4 = va := by omega
            have e2 : (va * 4 + vb / 16) % 4 * 16 = vb := by omega
            simp [b64encode, e1, e2, b64char_b64val a va hva,
              b64char_b64val b vb hvb]
      · rw [if_neg h2] at h
        by_cases h3 : d = '=' ∧ rest = []
        · obtain ⟨hd, hr⟩ := h3
          subst hd
          subst hr
          rw [if_pos ⟨rfl, rfl⟩] at h
          cases hva : b64val a with
          | none => simp [hva] at h
          | some va =>
            cases hvb : b64val b with
            | none => simp [hva, hvb] at h
            | some vb =>
              cases hvc : b64val c with
              | none => simp [hva, hvb, hvc] at h
              | some vc =>
                have hva64 := b64val_lt a va hva
                have hvb64 := b64val_lt b vb hvb
                have hvc64 := b64val_lt c vc hvc
                simp [hva, hvb, hvc] at h
                obtain ⟨hmod, rfl⟩ := h
                have e1 : (va * 4 + vb / 16) / 4 = va := by omega
                have e2 : (va * 4 + vb / 16) % 4 * 16 +
                    (vb % 16 * 16 + vc / 4) / 16 = vb := by omega
                have e3 : (vb % 16 * 16 + vc / 4) % 16 * 4 = vc := by omega
                simp [b64encode, e1, e2, e3, b64char_b64val a va hva,
                  b64char_b64val b vb hvb, b64char_b64val c vc hvc]
        · rw [if_neg h3] at h
          cases hva : b64val a with
          | none => simp [hva] at h
          | some va =>
            cases hvb : b64val b with
            | none => simp [hva, hvb] at h
            | some vb =>
              cases hvc : b64val c with
              | none => simp [hva, hvb, hvc] at h
              | some vc =>
                cases hvd : b64val d with
                | none => simp [hva, hvb, hvc, hvd] at h
                | some vd =>
                  cases htail : b64decode rest with
                  | none => simp [hva, hvb, hvc, hvd, htail] at h
                  | some tail =>
                    have hva64 := b64val_lt a va hva
                    have hvb64 := b64val_lt b vb hvb
                    have hvc64 := b64val_lt c vc hvc
                    have hvd64 := b64val_lt d vd hvd
                    have ih := b64encode_b64decode rest tail htail
                    simp [hva, hvb, hvc, hvd, htail] at h
                    obtain rfl := h.symm
                    have e1 : (va * 4 + vb / 16) / 4 = va := by omega
                    have e2 : (va * 4 + vb / 16) % 4 * 16 +
                        (vb % 16 * 16 + vc / 4) / 16 = vb := by omega
                    have e3 : (vb % 16 * 16 + vc / 4) % 16 * 4 +
                        (vc % 4 * 64 + vd) / 64 = vc := by omega
                    have e4 : (vc % 4 * 64 + vd) % 64 = vd := by omega
                    simp [b64encode, e1, e2, e3, e4, b64char_b64val a va hva,
                      b64char_b64val b vb hvb, b64char_b64val c vc hvc,
                      b64char_b64val d vd hvd, ih]

/-! ### IEEE-754 bit patterns

`f64`/`f32` values are embedded as their bit patterns (`Nat` below `2^64`
resp. `2^32`); `utils.rs::to_bytes`/`from_bytes` memcpy exactly these bits.
The Rust float cast `x as f32` (round to nearest, ties to even, overflow to
infinity) is modelled on bit patterns by `f64ToF32Bits`; the exact widening
cast `f32 → f64` (`.into()`) by `f32ToF64Bits`.  NaN payloads surviving a
cast are unspecified in Rust; `f64ToF32Bits` fixes one determinization
(truncate and quieten), which is irrelevant to the theorems below since they
only use these functions under a round-trip hypothesis. -/

/-- Round `v / 2^t` to the nearest integer, ties to even. -/
def roundNE (v t : Nat) : Nat :=
  if v % 2 ^ t > 2 ^ t / 2 ∨ (v % 2 ^ t = 2 ^ t / 2 ∧ v / 2 ^ t % 2 = 1) then
    v / 2 ^ t + 1
  else v / 2 ^ t

/-- Pack a finite rounded result: significand `N < 2^24` at scale `2^(t'-1074)`
(in units of the smallest positive `f64` subnormal), sign `s`. -/
def f32PackFinite (s N t' : Nat) : Nat :=
  if N < 2 ^ 23 then s * 2 ^ 31 + N
  else if 255 ≤ t' - 924 then s * 2 ^ 31 + 255 * 2 ^ 23
  else s * 2 ^ 31 + (t' - 924) * 2 ^ 23 + (N - 2 ^ 23)

/-- Structural binary logarithm (floor of log2, 0 at 0) with explicit fuel,
so that it reduces in the kernel. -/
def log2Fuel : Nat → Nat → Nat
  | 0, _ => 0
  | fuel + 1, n => if 2 ≤ n then log2Fuel fuel (n / 2) + 1 else 0

/-- Round a positive magnitude `V` (in units of `2^-1074`) at scale `t`
(position of the `f32` least significant bit in those units), returning the
significand and scale after renormalizing a rounding carry. -/
def f32Round (V t : Nat) : Nat × Nat :=
  if roundNE V t = 2 ^ 24 then (2 ^ 23, t + 1) else (roundNE V t, t)

/-- Bit pattern of `x as f32` for an `f64` bit pattern `x`.  The scale of the
`f32` least significant bit is `925` (`2^-149`, subnormals) or `e11 + 28`
(`2^(e11-1023-23)`, normals), whichever is larger. -/
def f64ToF32Bits (x : Nat) : Nat :=
  let s := x / 2 ^ 63 % 2
  let e11 := x / 2 ^ 52 % 2048
  let m52 := x % 2 ^ 52
  if e11 = 2047 then
    if m52 = 0 then s * 2 ^ 31 + 255 * 2 ^ 23
    else s * 2 ^ 31 + 255 * 2 ^ 23 + 2 ^ 22 + m52 / 2 ^ 29 % 2 ^ 22
  else
    let V := (if e11 = 0 then m52 else 2 ^ 52 + m52) *
      2 ^ (if e11 = 0 then 0 else e11 - 1)
    let t := if e11 = 0 then 925 else max (e11 + 28) 925
    if V = 0 then s * 2 ^ 31
    else f32PackFinite s (f32Round V t).1 (f32Round V t).2

/-- Bit pattern of the exact widening cast `f32 → f64`. -/
def f32ToF64Bits (x : Nat) : Nat :=
  let s := x / 2 ^ 31 % 2
  let e8 := x / 2 ^ 23 % 256
  let m23 := x % 2 ^ 23
  if e8 = 255 then s * 2 ^ 63 + 2047 * 2 ^ 52 + m23 * 2 ^ 29
  else if e8 = 0 then
    if m23 = 0 then s * 2 ^ 63
    else s * 2 ^ 63 + (log2Fuel 23 m23 + 874) * 2 ^ 52 +
      (m23 - 2 ^ log2Fuel 23 m23) * 2 ^ (52 - log2Fuel 23 m23)
  else s * 2 ^ 63 + (e8 + 896) * 2 ^ 52 + m23 * 2 ^ 29

theorem roundNE_le (v t : Nat) : roundNE v t ≤ v / 2 ^ t + 1 := by
  unfold roundNE
  split <;> omega

theorem f32Round_lt (V t : Nat) (hV : V < 2 ^ (t + 24)) :
    (f32Round V t).1 < 2 ^ 24 := by
  unfold f32Round
  have hdiv : V / 2 ^ t < 2 ^ 24 := by
    rw [Nat.div_lt_iff_lt_mul (by positivity)]
    calc V < 2 ^ (t + 24) := hV
      _ = 2 ^ 24 * 2 ^ t := by rw [← pow_add]; ring_nf
  have hle := roundNE_le V t
  split
  · simp
  · simp
    omega

theorem f32PackFinite_lt (s N t' : Nat) (hs : s ≤ 1) (hN : N < 2 ^ 24) :
    f32PackFinite s N t' < 2 ^ 32 := by
  unfold f32PackFinite
  split_ifs <;> omega

/-- The modelled `as f32` cast always produces a valid 32-bit pattern. -/
theorem f64ToF32Bits_lt (x : Nat) : f64ToF32Bits x < 2 ^ 32 := by
  unfold f64ToF32Bits
  dsimp only
  have hs : x / 2 ^ 63 % 2 ≤ 1 := by omega
  have hm : x % 2 ^ 52 < 2 ^ 52 := by omega
  split_ifs <;> try omega
  all_goals refine f32PackFinite_lt _ _ _ hs (f32Round_lt _ _ ?_)
  all_goals try omega
  have h6 : x / 2 ^ 52 % 2048 - 1 + 53 ≤ max (x / 2 ^ 52 % 2048 + 28) 925 + 24 := by
    omega
  calc (2 ^ 52 + x % 2 ^ 52) * 2 ^ (x / 2 ^ 52 % 2048 - 1)
      < 2 ^ 53 * 2 ^ (x / 2 ^ 52 % 2048 - 1) :=
        mul_lt_mul_of_pos_right (by omega) (by positivity)
    _ = 2 ^ (x / 2 ^ 52 % 2048 - 1 + 53) := by rw [← pow_add]; ring_nf
    _ ≤ 2 ^ (max (x / 2 ^ 52 % 2048 + 28) 925 + 24) :=
        Nat.pow_le_pow_right (by norm_num) h6

/-- Sanity check: `1.5f64 as f32` is `1.5f32` and widens back to `1.5f64`
(bit patterns `0x3FF8000000000000` and `0x3FC00000`). -/
theorem f32_cast_sanity :
    f64ToF32Bits 4609434218613702656 = 1069547520 ∧
    f32ToF64Bits 1069547520 = 4609434218613702656 := by
  constructor <;> decide

/-! ### `Dataunit` and `Datatype` (src/datatype.rs)

`Dataunit::F` carries the `f64` bit pattern (a `Nat` below `2^64`); equality
of embedded units is bit-pattern equality.  `Datatype::String` is renamed to
`Str` (the source constructor name collides with Lean's `String`). -/

/-- `Dataunit`: integer, float (as its `f64` bit pattern) or string. -/
inductive Dataunit where
  | I : Int → Dataunit
  | F : Nat → Dataunit
  | S : String → Dataunit
  deriving DecidableEq, Repr

/-- `Datatype`: the allowed column element types. -/
inductive Datatype where
  | Int64
  | Float64
  | Int32
  | Float32
  | Bytes (len : Nat)
  | Str (len : Nat)
  | Blob
  | Text
  deriving DecidableEq, Repr

/-- Result of `Datatype::to_bytes`: `ok` is `Some(bytes)`, `mismatch` is
`None` (tag mismatch), `panic` is the `.unwrap()` panic on a string that is
not valid base64. -/
inductive EncResult where
  | panic
  | mismatch
  | ok (bs : List Nat)
  deriving DecidableEq, Repr

/-- `Vec::resize(len, 0)`: truncate or zero-pad to exactly `len` bytes. -/
def resizeList (bs : List Nat) (len : Nat) : List Nat :=
  bs.take len ++ zeros (len - bs.length)

@[simp] theorem resizeList_length (bs : List Nat) (len : Nat) :
    (resizeList bs len).length = len := by
  simp [resizeList]
  omega

theorem resizeList_of_length (bs : List Nat) (len : Nat)
    (h : bs.length = len) : resizeList bs len = bs := by
  subst h
  simp [resizeList, zeros]

/-- UTF-8 bytes of a string (`str::as_bytes`). -/
def utf8Bytes (s : String) : List Nat := s.toUTF8.toList.map (fun b => b.toNat)

/-- `String::from_utf8_lossy` restricted to valid UTF-8 input; on invalid
UTF-8 the source substitutes replacement characters, which no claim
exercises, and the model returns the empty string. -/
def utf8Lossy (bs : List Nat) : String :=
  match String.fromUTF8? (ByteArray.mk (bs.map (fun b => UInt8.ofNat b)).toArray) with
  | some s => s
  | none => ""

/-- `trim_end_matches('\0')`. -/
def trimZeros (s : String) : String :=
  String.mk ((s.data.reverse.dropWhile (fun c => c = '\x00')).reverse)

/-- `Datatype::to_bytes` (datatype.rs lines 64-129). -/
def Datatype.to_bytes : Datatype → Dataunit → EncResult
  | .Int64, .I x => .ok (i64ToBytes x)
  | .Int64, _ => .mismatch
  | .Int32, .I x => .ok (i32ToBytes x)
  | .Int32, _ => .mismatch
  | .Float64, .F x => .ok (natToLE 8 x)
  | .Float64, _ => .mismatch
  | .Float32, .F x => .ok (natToLE 4 (f64ToF32Bits x))
  | .Float32, _ => .mismatch
  | .Bytes len, .S x =>
      (match b64decode x.data with
       | some block => .ok (resizeList block len)
       | none => .panic)
  | .Bytes _, _ => .mismatch
  | .Str len, .S x => .ok (resizeList (utf8Bytes x) len)
  | .Str _, _ => .mismatch
  | .Blob, .S x =>
      (match b64decode x.data with
       | some block => .ok block
       | none => .panic)
  | .Blob, _ => .mismatch
  | .Text, .S x => .ok (utf8Bytes x)
  | .Text, _ => .mismatch

/-- `Datatype::from_bytes` (datatype.rs lines 132-165).  The source reads
exactly the datatype's width from the slice (shorter slices panic or are
undefined there and are out of scope of every claim); the model takes the
prefix. -/
def Datatype.from_bytes : Datatype → List Nat → Dataunit
  | .Int64, block => .I (bytesToI64 (block.take 8))
  | .Int32, block => .I (bytesToI32 (block.take 4))
  | .Float64, block => .F (leToNat (block.take 8))
  | .Float32, block => .F (f32ToF64Bits (leToNat (block.take 4)))
  | .Bytes len, block => .S (String.mk (b64encode (block.take len)))
  | .Str len, block => .S (trimZeros (utf8Lossy (block.take len)))
  | .Blob, block => .S (String.mk (b64encode block))
  | .Text, block => .S (trimZeros (utf8Lossy block))

/-- `Datatype::size` (datatype.rs lines 168-179). -/
def Datatype.size : Datatype → Nat
  | .Int64 => 8
  | .Float64 => 8
  | .Int32 => 4
  | .Float32 => 4
  | .Bytes len => len
  | .Str len => len
  | .Blob => 0
  | .Text => 0

/-- `strip_prefix`. -/
def stripPrefixCh : List Char → List Char → Option (List Char)
  | [], cs => some cs
  | _ :: _, [] => none
  | p :: ps, c :: cs => if p = c then stripPrefixCh ps cs else none

/-- `strip_suffix`. -/
def stripSuffixCh (suf cs : List Char) : Option (List Char) :=
  if suf.length ≤ cs.length ∧ cs.drop (cs.length - suf.length) = suf then
    some (cs.take (cs.length - suf.length))
  else none

/-- `unpack_from_pattern` (datatype.rs lines 199-203). -/
def unpackFromPattern (text pref suff : List Char) : Option (List Char) :=
  (stripPrefixCh pref text).bind fun r => stripSuffixCh suff r

/-- `str::parse::<usize>()`: an optional leading `+`, then one or more
decimal digits, value below `2^64` (64-bit `usize`; overflow errors). -/
def parseUsize (cs : List Char) : Option Nat :=
  match cs with
  | '+' :: ds => parseUsizeDigits ds
  | ds => parseUsizeDigits ds
where
  parseUsizeDigits (ds : List Char) : Option Nat :=
    if ds ≠ [] ∧ ds.all Char.isDigit then
      if ds.foldl (fun a c => a * 10 + (c.toNat - 48)) 0 < 2 ^ 64 then
        some (ds.foldl (fun a c => a * 10 + (c.toNat - 48)) 0)
      else none
    else none

/-- `Datatype::from_str` (datatype.rs lines 206-233), on character lists. -/
def fromStrCore (cs : List Char) : Except String Datatype :=
  if cs = "Int64".data then .ok .Int64
  else if cs = "Float64".data then .ok .Float64
  else if cs = "Int32".data then .ok .Int32
  else if cs = "Float32".data then .ok .Float32
  else if cs = "Blob".data then .ok .Blob
  else if cs = "Text".data then .ok .Text
  else
    match unpackFromPattern cs "Bytes[".data "]".data with
    | some lenStr =>
        (match parseUsize lenStr with
         | some n => .ok (.Bytes n)
         | none => .error ("Unknown datatype"))
    | none =>
        match unpackFromPattern cs "String[".data "]".data with
        | some lenStr =>
            (match parseUsize lenStr with
             | some n => .ok (.Str n)
             | none => .error ("Unknown datatype"))
        | none => .error ("Unknown datatype")

/-- `Datatype::from_str` on strings. -/
def Datatype.from_str (s : String) : Except String Datatype := fromStrCore s.data

/-! ### Datatype claim support -/

/-- The canonical (stabilized, fixed-width) datatypes of the specification:
`Int64`, `Int32`, `Float64`, `Float32`, `Bytes[N]`. -/
def Datatype.canonical : Datatype → Bool
  | .Int64 => true
  | .Int32 => true
  | .Float64 => true
  | .Float32 => true
  | .Bytes _ => true
  | _ => false

/-- Whether the tag of a `Dataunit` matches a `Datatype` (`I` for the integer
types, `F` for the float types, `S` for the byte/string types). -/
def tagMatches : Datatype → Dataunit → Bool
  | .Int64, .I _ => true
  | .Int32, .I _ => true
  | .Float64, .F _ => true
  | .Float32, .F _ => true
  | .Bytes _, .S _ => true
  | .Str _, .S _ => true
  | .Blob, .S _ => true
  | .Text, .S _ => true
  | _, _ => false

/-- String payloads feeding the base64 `.unwrap()` decode successfully. -/
def validPayload : Datatype → Dataunit → Bool
  | .Bytes _, .S s => (b64decode s.data).isSome
  | .Blob, .S s => (b64decode s.data).isSome
  | _, _ => true

/-- In-range units for the round-trip property: `i64`/`i32` bounds for the
integer types, a valid 64-bit pattern for `Float64`, patterns surviving the
`f64 → f32 → f64` cast chain for `Float32` (the claim's "modulo `Float32`
precision loss"), and for `Bytes[N]` a base64 payload that decodes to exactly
`N` bytes (the claim's "modulo zero-padding/truncation"). -/
def inRange : Datatype → Dataunit → Bool
  | .Int64, .I x => decide (-(2 ^ 63) ≤ x ∧ x < 2 ^ 63)
  | .Int32, .I x => decide (-(2 ^ 31) ≤ x ∧ x < 2 ^ 31)
  | .Float64, .F x => decide (x < 2 ^ 64)
  | .Float32, .F x => decide (f32ToF64Bits (f64ToF32Bits x) = x)
  | .Bytes n, .S s =>
      (match b64decode s.data with
       | some bs => decide (bs.length = n)
       | none => false)
  | _, _ => false

/-- `to_bytes` output length equals `size()` for every canonical datatype. -/
theorem to_bytes_length_canonical (dt : Datatype) (u : Dataunit) (bs : List Nat)
    (hc : dt.canonical = true) (h : dt.to_bytes u = .ok bs) :
    bs.length = dt.size := by
  cases dt <;> cases u <;>
    simp only [Datatype.to_bytes, Datatype.canonical, Datatype.size] at h ⊢ <;>
    first
    | exact Bool.noConfusion hc
    | exact EncResult.noConfusion h
    | (injection h with h1; rw [← h1]; simp [i64ToBytes, i32ToBytes])
    | (rename_i len s
       cases hdec : b64decode s.data <;> rw [hdec] at h
       · exact EncResult.noConfusion h
       · injection h with h1; rw [← h1]; simp)

/-- C6: for every canonical datatype and in-range matching unit, decoding the
encoding is the identity (`Float32` up to the precision of the `f32` cast,
`Bytes[N]` up to padding/truncation of the decoded payload, both captured by
`inRange`). -/
theorem c6_decode_encode_roundtrip (dt : Datatype) (u : Dataunit)
    (bs : List Nat) (hc : dt.canonical = true) (hr : inRange dt u = true)
    (he : dt.to_bytes u = .ok bs) : dt.from_bytes bs = u := by
  cases dt <;> cases u <;>
      simp only [Datatype.canonical, inRange, Datatype.to_bytes] at hc hr he <;>
      try first
        | exact Bool.noConfusion hc
        | exact Bool.noConfusion hr
  case Int64.I x =>
    injection he with h1
    rw [← h1]
    simp only [Datatype.from_bytes]
    rw [List.take_of_length_le (by simp [i64ToBytes])]
    rw [decide_eq_true_iff] at hr
    rw [i64_roundtrip x hr.1 hr.2]
  case Int32.I x =>
    injection he with h1
    rw [← h1]
    simp only [Datatype.from_bytes]
    rw [List.take_of_length_le (by simp [i32ToBytes])]
    rw [i32_decode_asI32 x]
    rw [decide_eq_true_iff] at hr
    have : asI32 x = x := by unfold asI32; omega
    rw [this]
  case Float64.F x =>
    injection he with h1
    rw [← h1]
    simp only [Datatype.from_bytes]
    rw [List.take_of_length_le (by simp)]
    rw [decide_eq_true_iff] at hr
    rw [leToNat_natToLE_of_lt (by norm_num; omega)]
  case Float32.F x =>
    injection he with h1
    rw [← h1]
    simp only [Datatype.from_bytes]
    rw [List.take_of_length_le (by simp)]
    have hlt := f64ToF32Bits_lt x
    rw [leToNat_natToLE_of_lt (by norm_num; omega)]
    rw [decide_eq_true_iff] at hr
    rw [hr]
  case Bytes.S len s =>
    cases hdec : b64decode s.data <;> rw [hdec] at hr he
    · exact Bool.noConfusion hr
    · rename_i block
      rw [decide_eq_true_iff] at hr
      injection he with h1
      rw [← h1]
      simp only [Datatype.from_bytes]
      rw [resizeList_of_length block len hr]
      rw [List.take_of_length_le (by omega)]
      rw [b64encode_b64decode s.data block hdec]

/-- C6 witness: the `Bytes[3]` round trip on the canonical encoding of the
three bytes `[65, 66, 67]`. -/
theorem c6_decode_encode_roundtrip_witness :
    Datatype.canonical (.Bytes 3) = true ∧
    inRange (.Bytes 3) (.S ("QUJD")) = true ∧
    Datatype.to_bytes (.Bytes 3) (.S ("QUJD")) = .ok [65, 66, 67] ∧
    Datatype.from_bytes (.Bytes 3) [65, 66, 67] = .S ("QUJD") :=
  ⟨by decide, by decide, by decide,
    c6_decode_encode_roundtrip _ _ _ (by decide) (by decide) (by decide)⟩

/-- C9: for canonical datatypes, `to_bytes` yields `None` exactly on tag
mismatch, and on a matching tag (with, for `Bytes[N]`, a valid base64
payload) it yields `Some` of a byte vector of length exactly `size()`. -/
theorem c9_to_bytes_mismatch_and_length (dt : Datatype) (u : Dataunit)
    (hc : dt.canonical = true) :
    (dt.to_bytes u = .mismatch ↔ tagMatches dt u = false) ∧
    (tagMatches dt u = true → validPayload dt u = true →
      ∃ bs, dt.to_bytes u = .ok bs ∧ bs.length = dt.size) := by
  constructor
  · cases dt <;> cases u <;>
      simp only [Datatype.to_bytes, Datatype.canonical, tagMatches] at hc ⊢ <;>
      try exact Bool.noConfusion hc
    all_goals try simp
    all_goals rename_i s
    all_goals (cases hdec : b64decode s.data <;> simp)
  · intro ht hv
    cases dt <;> cases u <;>
      simp only [Datatype.to_bytes, Datatype.canonical, tagMatches,
        validPayload, Datatype.size] at hc ht hv ⊢ <;>
      try exact Bool.noConfusion hc
    all_goals try exact Bool.noConfusion ht
    case Int64.I x => exact ⟨_, rfl, by simp [i64ToBytes]⟩
    case Int32.I x => exact ⟨_, rfl, by simp [i32ToBytes]⟩
    case Float64.F x => exact ⟨_, rfl, by simp⟩
    case Float32.F x => exact ⟨_, rfl, by simp⟩
    case Bytes.S len s =>
      cases hdec : b64decode s.data
      · simp [hdec] at hv
      · exact ⟨_, rfl, by simp⟩

/-- C9 witness: `Int64` on the unit `I 5`. -/
theorem c9_to_bytes_mismatch_and_length_witness :
    Datatype.canonical .Int64 = true ∧
    (Datatype.to_bytes .Int64 (.I 5) = .mismatch ↔
      tagMatches .Int64 (.I 5) = false) ∧
    (tagMatches .Int64 (.I 5) = true → validPayload .Int64 (.I 5) = true →
      ∃ bs, Datatype.to_bytes .Int64 (.I 5) = .ok bs ∧
        bs.length = Datatype.size .Int64) :=
  ⟨by decide, (c9_to_bytes_mismatch_and_length .Int64 (.I 5) (by decide)).1,
    (c9_to_bytes_mismatch_and_length .Int64 (.I 5) (by decide)).2⟩

/-- C10: `Int32.to_bytes` succeeds on every integer unit, encoding the value
truncated to 32 bits (the cast `x as i32`, modelled by `asI32`); decoding the
encoding gives `asI32 x`, which equals `x` exactly when `x` fits in `i32`. -/
theorem c10_int32_truncation (x : Int) :
    Datatype.to_bytes .Int32 (.I x) = .ok (i32ToBytes x) ∧
    Datatype.from_bytes .Int32 (i32ToBytes x) = .I (asI32 x) ∧
    (asI32 x = x ↔ -(2 ^ 31) ≤ x ∧ x < 2 ^ 31) := by
  refine ⟨rfl, ?_, ?_⟩
  · simp only [Datatype.from_bytes]
    rw [List.take_of_length_le (by simp [i32ToBytes])]
    rw [i32_decode_asI32 x]
  · unfold asI32
    omega

/-! ### Parsing support lemmas -/

theorem stripPrefixCh_eq_some (p : List Char) :
    ∀ cs r, stripPrefixCh p cs = some r ↔ cs = p ++ r := by
  induction p with
  | nil => intro cs r; simp [stripPrefixCh, eq_comm]
  | cons a ps ih =>
      intro cs r
      cases cs with
      | nil => simp [stripPrefixCh]
      | cons c cs' =>
          by_cases hac : a = c
          · subst hac
            simp [stripPrefixCh, ih]
          · simp [stripPrefixCh, hac]
            intro h
            exact absurd h.symm hac

theorem stripSuffixCh_eq_some (suf cs r : List Char) :
    stripSuffixCh suf cs = some r ↔ cs = r ++ suf := by
  unfold stripSuffixCh
  constructor
  · intro h
    split at h
    · rename_i hcond
      injection h with h3
      subst h3
      conv_lhs => rw [← List.take_append_drop (cs.length - suf.length) cs]
      rw [hcond.2]
    · exact Option.noConfusion h
  · intro h
    subst h
    have hl : (r ++ suf).length - suf.length = r.length := by simp
    rw [if_pos ⟨by simp, by rw [hl, List.drop_left]⟩, hl, List.take_left]

theorem unpackFromPattern_eq_some (text pref suff r : List Char) :
    unpackFromPattern text pref suff = some r ↔ text = pref ++ (r ++ suff) := by
  unfold unpackFromPattern
  cases hsp : stripPrefixCh pref text with
  | none =>
      simp only [Option.none_bind]
      constructor
      · intro h
        exact Option.noConfusion h
      · intro h
        have h2 := (stripPrefixCh_eq_some pref text (r ++ suff)).mpr h
        rw [hsp] at h2
        exact Option.noConfusion h2
  | some mid =>
      have hmid : text = pref ++ mid := (stripPrefixCh_eq_some pref text mid).mp hsp
      rw [hmid]
      simp only [Option.some_bind, stripSuffixCh_eq_some]
      exact ⟨fun h => by rw [h], fun h => List.append_cancel_left h⟩

/-- C8 counterexample: the parser accepts `Bytes[0]` (the claim requires an
error for `N = 0`) as well as the tokens `Blob` and `String[5]` outside the
claim's list of accepted forms. -/
theorem c8_counterexample_accepts_bytes0 :
    Datatype.from_str ("Bytes[0]") = .ok (.Bytes 0) ∧
    Datatype.from_str ("Blob") = .ok .Blob ∧
    Datatype.from_str ("String[5]") = .ok (.Str 5) :=
  ⟨rfl, rfl, rfl⟩

/-- C8 (amended): the datatype parser maps the six fixed tokens `Int64`,
`Float64`, `Int32`, `Float32`, `Blob`, `Text` to their variants, maps
`Bytes[N]` / `String[N]` to `Bytes N` / `String N` for every `N` accepted by
`usize` parsing — including `N = 0` — and returns an error on every other
string. -/
theorem c8_from_str_characterization :
    (Datatype.from_str ("Int64") = .ok .Int64 ∧
     Datatype.from_str ("Float64") = .ok .Float64 ∧
     Datatype.from_str ("Int32") = .ok .Int32 ∧
     Datatype.from_str ("Float32") = .ok .Float32 ∧
     Datatype.from_str ("Blob") = .ok .Blob ∧
     Datatype.from_str ("Text") = .ok .Text) ∧
    (∀ (inner : List Char) (n : Nat), parseUsize inner = some n →
      fromStrCore ("Bytes[".data ++ (inner ++ "]".data)) = .ok (.Bytes n) ∧
      fromStrCore ("String[".data ++ (inner ++ "]".data)) = .ok (.Str n)) ∧
    (∀ cs : List Char, (fromStrCore cs).isOk = true ↔
      (cs = "Int64".data ∨ cs = "Float64".data ∨ cs = "Int32".data ∨
       cs = "Float32".data ∨ cs = "Blob".data ∨ cs = "Text".data ∨
       (∃ inner, cs = "Bytes[".data ++ (inner ++ "]".data) ∧
          (parseUsize inner).isSome = true) ∨
       (∃ inner, cs = "String[".data ++ (inner ++ "]".data) ∧
          (parseUsize inner).isSome = true))) := by
  have key : ∀ (inner : List Char) (n : Nat), parseUsize inner = some n →
      fromStrCore ("Bytes[".data ++ (inner ++ "]".data)) = .ok (.Bytes n) ∧
      fromStrCore ("String[".data ++ (inner ++ "]".data)) = .ok (.Str n) := by
    intro inner n hp
    constructor
    · show fromStrCore ('B' :: 'y' :: 't' :: 'e' :: 's' :: '[' ::
        (inner ++ "]".data)) = _
      have hu : unpackFromPattern ('B' :: 'y' :: 't' :: 'e' :: 's' :: '[' ::
          (inner ++ "]".data)) ("Bytes[".data) ("]".data) = some inner :=
        (unpackFromPattern_eq_some _ _ _ _).mpr rfl
      unfold fromStrCore
      rw [if_neg (fun h => by injection h with h1 _; exact absurd h1 (by decide)),
        if_neg (fun h => by injection h with h1 _; exact absurd h1 (by decide)),
        if_neg (fun h => by injection h with h1 _; exact absurd h1 (by decide)),
        if_neg (fun h => by injection h with h1 _; exact absurd h1 (by decide)),
        if_neg (fun h => by
          injection h with h1 h2
          injection h2 with h3 _
          exact absurd h3 (by decide)),
        if_neg (fun h => by injection h with h1 _; exact absurd h1 (by decide)),
        hu]
      dsimp only
      rw [hp]
    · show fromStrCore ('S' :: 't' :: 'r' :: 'i' :: 'n' :: 'g' :: '[' ::
        (inner ++ "]".data)) = _
      have hu0 : unpackFromPattern ('S' :: 't' :: 'r' :: 'i' :: 'n' :: 'g' ::
          '[' :: (inner ++ "]".data)) ("Bytes[".data) ("]".data) = none := rfl
      have hu : unpackFromPattern ('S' :: 't' :: 'r' :: 'i' :: 'n' :: 'g' ::
          '[' :: (inner ++ "]".data)) ("String[".data) ("]".data) = some inner :=
        (unpackFromPattern_eq_some _ _ _ _).mpr rfl
      unfold fromStrCore
      rw [if_neg (fun h => by injection h with h1 _; exact absurd h1 (by decide)),
        if_neg (fun h => by injection h with h1 _; exact absurd h1 (by decide)),
        if_neg (fun h => by injection h with h1 _; exact absurd h1 (by decide)),
        if_neg (fun h => by injection h with h1 _; exact absurd h1 (by decide)),
        if_neg (fun h => by injection h with h1 _; exact absurd h1 (by decide)),
        if_neg (fun h => by injection h with h1 _; exact absurd h1 (by decide)),
        hu0]
      dsimp only
      rw [hu]
      dsimp only
      rw [hp]
  refine ⟨⟨rfl, rfl, rfl, rfl, rfl, rfl⟩, key, ?_⟩
  intro cs
  constructor
  · intro hok
    unfold fromStrCore at hok
    split_ifs at hok with h1 h2 h3 h4 h5 h6
    · exact Or.inl h1
    · exact Or.inr (Or.inl h2)
    · exact Or.inr (Or.inr (Or.inl h3))
    · exact Or.inr (Or.inr (Or.inr (Or.inl h4)))
    · exact Or.inr (Or.inr (Or.inr (Or.inr (Or.inl h5))))
    · exact Or.inr (Or.inr (Or.inr (Or.inr (Or.inr (Or.inl h6)))))
    · cases hu : unpackFromPattern cs ("Bytes[".data) ("]".data) with
      | some lenStr =>
          rw [hu] at hok
          dsimp only at hok
          cases hp : parseUsize lenStr with
          | some n =>
              refine Or.inr (Or.inr (Or.inr (Or.inr (Or.inr (Or.inr (Or.inl
                ⟨lenStr, (unpackFromPattern_eq_some _ _ _ _).mp hu, ?_⟩))))))
              rw [hp]
              rfl
          | none =>
              rw [hp] at hok
              exact Bool.noConfusion hok
      | none =>
          rw [hu] at hok
          dsimp only at hok
          cases hu2 : unpackFromPattern cs ("String[".data) ("]".data) with
          | some lenStr =>
              rw [hu2] at hok
              dsimp only at hok
              cases hp : parseUsize lenStr with
              | some n =>
                  refine Or.inr (Or.inr (Or.inr (Or.inr (Or.inr (Or.inr
                    (Or.inr ⟨lenStr, (unpackFromPattern_eq_some _ _ _ _).mp hu2,
                      ?_⟩))))))
                  rw [hp]
                  rfl
              | none =>
                  rw [hp] at hok
                  exact Bool.noConfusion hok
          | none =>
              rw [hu2] at hok
              exact Bool.noConfusion hok
  · intro hd
    rcases hd with rfl | rfl | rfl | rfl | rfl | rfl |
      ⟨inner, rfl, hp⟩ | ⟨inner, rfl, hp⟩
    · rfl
    · rfl
    · rfl
    · rfl
    · rfl
    · rfl
    · obtain ⟨n, hn⟩ := Option.isSome_iff_exists.mp hp
      rw [(key inner n hn).1]
      rfl
    · obtain ⟨n, hn⟩ := Option.isSome_iff_exists.mp hp
      rw [(key inner n hn).2]
      rfl

/-- C8 witness: `Bytes[7]` parses to `Bytes 7` through the characterization. -/
theorem c8_from_str_characterization_witness :
    parseUsize ("7".data) = some 7 ∧
    fromStrCore ("Bytes[".data ++ ("7".data ++ "]".data)) = .ok (.Bytes 7) :=
  ⟨rfl, (c8_from_str_characterization.2.1 ("7".data) 7 rfl).1⟩

/-! ### `Seq`/`Col` record level and `List` (src/col.rs, src/list.rs)

`Col<T>` stores records in a file; at the record level it is a `List T`.
`seq.get` past the end fails with `UnexpectedEof` (`read_exact`); `update` at
`ix < size` overwrites, at `ix = size` appends (`seek` + `write`); `resize`
in `List` only ever shrinks (`resize(size - 1)`), modelled by `take` (growth
zero-fills at the byte level, which has no record-level counterpart and is
never used by `List`). -/

/-- `Col::get`. -/
def colGet {T : Type} (l : List T) (ix : Nat) : Except IOErr T :=
  match l.get? ix with
  | some x => .ok x
  | none => .error .unexpectedEof

/-- `Col::update` (in-bounds overwrite; at the end, append). -/
def colUpdate {T : Type} (l : List T) (ix : Nat) (x : T) : List T :=
  if ix = l.length then l ++ [x] else l.set ix x

/-- `Col::resize` as used by `List::remove` (shrink). -/
def colResize {T : Type} (l : List T) (n : Nat) : List T := l.take n

/-- `Col::push`: append, returning the index of the new record. -/
def colPush {T : Type} (l : List T) (x : T) : List T × Nat :=
  (l ++ [x], l.length)

/-- In-memory state of a `List<T, K>`: the stored records (`col`) and the
in-memory index map (`ixmap`). -/
structure ListSt (T K : Type) where
  col : List T
  ixmap : List (K × Nat)
  deriving DecidableEq, Repr

/-- `List::_build_ixmap`: index every record by its key (collect semantics:
later duplicates overwrite earlier ones). -/
def buildIxmap {T K : Type} [DecidableEq K] (key : T → K) (records : List T) :
    List (K × Nat) :=
  (records.enum.map (fun p => (key p.2, p.1))).foldl
    (fun m p => alistInsert m p.1 p.2) []

/-- `List::new`: read all records and build the index map. -/
def ListSt.new {T K : Type} [DecidableEq K] (key : T → K) (records : List T) :
    ListSt T K :=
  { col := records, ixmap := buildIxmap key records }

/-- `List::exists`. -/
def ListSt.keyExists {T K : Type} [DecidableEq K] (s : ListSt T K) (k : K) :
    Bool :=
  (alistLookup s.ixmap k).isSome

/-- `List::size`. -/
def ListSt.size {T K : Type} (s : ListSt T K) : Nat := s.col.length

/-- `List::map`: all records keyed (collect semantics). -/
def ListSt.toMap {T K : Type} [DecidableEq K] (key : T → K) (s : ListSt T K) :
    List (K × T) :=
  s.col.foldl (fun m r => alistInsert m (key r) r) []

/-- `List::detail` (list.rs lines 62-69). -/
def ListSt.detail {T K : Type} [DecidableEq K] (s : ListSt T K) (k : K) :
    Except IOErr T :=
  match alistLookup s.ixmap k with
  | some ix => colGet s.col ix
  | none => .error .notFound

/-- `List::add` (list.rs lines 71-81). -/
def ListSt.add {T K : Type} [DecidableEq K] (key : T → K) (s : ListSt T K)
    (rec : T) : Except IOErr (ListSt T K) :=
  if (alistLookup s.ixmap (key rec)).isSome then .error .alreadyExists
  else
    .ok { col := (colPush s.col rec).1,
          ixmap := alistInsert s.ixmap (key rec) (colPush s.col rec).2 }

/-- `List::remove` (list.rs lines 83-95): read the tail record, overwrite the
removed position with it, shrink by one, drop the key from the index map.
The source never reinserts the moved record's key. -/
def ListSt.remove {T K : Type} [DecidableEq K] (s : ListSt T K) (k : K) :
    Except IOErr (ListSt T K) :=
  match alistLookup s.ixmap k with
  | some ix =>
      (colGet s.col (s.col.length - 1)).map fun rec =>
        { col := colResize (colUpdate s.col ix rec) (s.col.length - 1),
          ixmap := alistErase s.ixmap k }
  | none => .error .notFound

/-- `List::modify` (list.rs lines 97-116). -/
def ListSt.modify {T K : Type} [DecidableEq K] (key : T → K) (s : ListSt T K)
    (k : K) (rec : T) : Except IOErr (ListSt T K) :=
  match alistLookup s.ixmap k with
  | some ix =>
      if key rec = k then .ok { s with col := colUpdate s.col ix rec }
      else if (alistLookup s.ixmap (key rec)).isSome then .error .alreadyExists
      else
        .ok { col := colUpdate s.col ix rec,
              ixmap := alistInsert (alistErase s.ixmap k) (key rec) ix }
  | none => .error .notFound

/-- C1: evaluating `List::remove` at the claim's own example (keys `0,1,2`
stored at positions `0,1,2`, records carried as key-value pairs).  The
records do become `[c, b]`, but the source never updates the moved tail
record's index: the map still sends key `2` to position `2` (the claim
requires position `0`), so `detail` on that key fails past the end. -/
theorem c1_remove_leaves_stale_index :
    ∃ s1 : ListSt (Nat × Nat) Nat,
      ListSt.remove (ListSt.new Prod.fst [(0, 100), (1, 101), (2, 102)]) 0 =
        .ok s1 ∧
      s1.col = [(2, 102), (1, 101)] ∧
      alistLookup s1.ixmap 1 = some 1 ∧
      alistLookup s1.ixmap 2 = some 2 ∧
      alistLookup s1.ixmap 0 = none ∧
      s1.detail 2 = .error .unexpectedEof :=
  ⟨⟨[(2, 102), (1, 101)], [(1, 1), (2, 2)]⟩, rfl, rfl, rfl, rfl, rfl, rfl⟩

/-- C3: a three-step run reaching a `List` state that violates the claimed
invariant: after `add 0`, `add 1`, `remove 0`, the key `1` is still indexed
(at position `1`) but the store holds a single record, so `detail 1` fails
instead of returning the record with key `1`. -/
theorem c3_invariant_violated_after_remove :
    ∃ s : ListSt (Nat × Nat) Nat,
      (do
        let s1 ← ListSt.add Prod.fst (ListSt.new Prod.fst []) (0, 100)
        let s2 ← ListSt.add Prod.fst s1 (1, 101)
        ListSt.remove s2 0) = .ok s ∧
      alistLookup s.ixmap 1 = some 1 ∧
      s.col = [(1, 101)] ∧
      s.detail 1 = .error .unexpectedEof :=
  ⟨⟨[(1, 101)], [(1, 1)]⟩, rfl, rfl, rfl, rfl⟩

/-! ### `Seq` at the byte level (src/seq.rs)

A `Seq` is an open file handle: the file's bytes, the fixed `block_size`, and
a `fault` flag modelling the external filesystem failing this file's
operations (the engine's own code never raises these errors; they come from
the runtime).  A faulted file rejects operations and keeps its bytes. -/

/-- An open `Seq` handle / its backing file. -/
structure SeqSt where
  data : List Nat
  blockSize : Nat
  fault : Bool
  deriving DecidableEq, Repr

/-- `Seq::resize` (seq.rs lines 50-54): `set_len` truncates or zero-extends
to `new_size * block_size` bytes. -/
def Seq.resize (sq : SeqSt) (newSize : Nat) : Except IOErr SeqSt :=
  if sq.fault then .error .ioFailure
  else
    .ok { sq with data := (sq.data.take (newSize * sq.blockSize) ++
            zeros (newSize * sq.blockSize - sq.data.length)) }

/-- `Seq::update` (seq.rs lines 83-90): seek to `ix * block_size` and write
the whole block (writing past the end zero-fills the gap and extends). -/
def Seq.update (sq : SeqSt) (ix : Nat) (block : List Nat) : Except IOErr SeqSt :=
  if sq.fault then .error .ioFailure
  else
    .ok { sq with data := (sq.data.take (ix * sq.blockSize) ++
            zeros (ix * sq.blockSize - sq.data.length) ++ block ++
            sq.data.drop (ix * sq.blockSize + block.length)) }

/-- `Seq::get` (seq.rs lines 71-78): seek and `read_exact`; reading past the
end fails with `UnexpectedEof`. -/
def Seq.get (sq : SeqSt) (ix : Nat) (len : Nat) : Except IOErr (List Nat) :=
  if sq.fault then .error .ioFailure
  else if ix * sq.blockSize + len ≤ sq.data.length then
    .ok ((sq.data.drop (ix * sq.blockSize)).take len)
  else .error .unexpectedEof

/-! ### Name validation and catalog items (src/utils.rs, src/items.rs) -/

/-- Splits a character list at every `'.'` (the dots themselves dropped,
empty segments kept). -/
def splitDot : List Char → List (List Char)
  | [] => [[]]
  | c :: rest =>
      if c = '.' then [] :: splitDot rest
      else
        match splitDot rest with
        | seg :: segs => (c :: seg) :: segs
        | [] => [[c]]

/-- One regex segment `[A-Za-z_][A-Za-z_0-9]*`. -/
def segOk : List Char → Bool
  | [] => false
  | c :: rest =>
      (c.isAlpha || c = '_') && rest.all (fun d => d.isAlphanum || d = '_')

/-- `validate_allowed_name` (utils.rs lines 95-101): match against
`^[a-zA-Z_][a-zA-Z_0-9]*(\.[a-zA-Z_][a-zA-Z_0-9]*)*$`, else `InvalidInput`.
The regex is equivalent to: every dot-separated segment is a valid segment
(`Char.isAlpha`/`Char.isAlphanum` are the ASCII classes of the pattern). -/
def validate_allowed_name (name : String) : Except IOErr Unit :=
  if (splitDot name.data).all segOk then .ok () else .error .invalidInput

/-- `FeedItem` (items.rs lines 17-25): the 256-byte zero-padded name buffer
is modelled by the trimmed name string (all names in scope are shorter than
256 bytes, so `str_to_bytes`/`bytes_to_str` are inverse). -/
structure FeedItem where
  name : String
  size : Nat
  deriving DecidableEq, Repr

/-- `FeedItem::key`. -/
def feedKey (f : FeedItem) : String := f.name

/-- `FeedItem::new` (items.rs lines 36-43): validate, then construct with
size 0. -/
def FeedItem.new (name : String) : Except IOErr FeedItem :=
  (validate_allowed_name name).map fun _ => { name := name, size := 0 }

/-- `FeedItem::rename` (items.rs lines 50-55): validate, then overwrite the
name; on validation failure the item is left unchanged and the error
returned. -/
def FeedItem.rename (f : FeedItem) (name : String) : Except IOErr FeedItem :=
  (validate_allowed_name name).map fun _ => { f with name := name }

/-- `ColItem` (items.rs lines 59-67). -/
structure ColItem where
  name : String
  datatype : Datatype
  deriving DecidableEq, Repr

/-- `ColItem::key`. -/
def colKey (c : ColItem) : String := c.name

/-- `ColItem::rename` (items.rs lines 97-102). -/
def ColItem.rename (c : ColItem) (name : String) : Except IOErr ColItem :=
  (validate_allowed_name name).map fun _ => { c with name := name }

/-! ### `Conn` (src/conn.rs)

The connection state mirrors the source's fields; `diskColLists`/`diskSeqs`
model the filesystem for feeds that are *not* currently open (for open feeds
the file contents live inside the open handles, since a handle is a view of
its file): `_feed_close` drops the in-memory maps and indexes, so the model
moves the raw contents to the disk fields, and `_feed_open` reads them back,
rebuilding the indexes exactly as `List::new` does.

Operations return `result × state` because the source mutates shared state
before points of failure.  The `JoinSet::join_all` fan-outs in `size_set` and
`_data_update` touch pairwise distinct `Seq`s, so the parallel execution is
modelled by a fold in iteration order; crucially, `join_all`'s `Vec` of task
results is dropped on the floor by the source, which the model renders with
`.toOption.getD` (a failed resize/update leaves that file unchanged and is
otherwise ignored). -/

/-- Connection state (conn.rs lines 23-41 plus the filesystem model). -/
structure ConnSt where
  feedList : ListSt FeedItem String
  feedMap : List (String × FeedItem)
  colListMapping : List (String × ListSt ColItem String)
  colMapMapping : List (String × List (String × ColItem))
  seqMapping : List (String × List (String × SeqSt))
  diskColLists : List (String × List ColItem)
  diskSeqs : List (String × List (String × SeqSt))
  deriving DecidableEq, Repr

/-- `Conn::feed_exists`. -/
def Conn.feed_exists (c : ConnSt) (f : String) : Bool :=
  (alistLookup c.feedMap f).isSome

/-- `Conn::size_get` (conn.rs lines 252-257). -/
def Conn.size_get (c : ConnSt) (f : String) : Except IOErr Nat :=
  match alistLookup c.feedMap f with
  | some item => .ok item.size
  | none => .error .notFound

/-- `Conn::size_set` (conn.rs lines 259-282): resize every column's `Seq`
(the per-task results of `join_all` are discarded), then set the in-memory
feed size and persist it through `feed_list.modify`, returning the old
size. -/
def Conn.size_set (c : ConnSt) (f : String) (size : Nat) :
    Except IOErr Nat × ConnSt :=
  match alistLookup c.seqMapping f with
  | none => (.error .panicked, c)
  | some sm =>
    let sm' := sm.map fun p => (p.1, (Seq.resize p.2 size).toOption.getD p.2)
    let c1 := { c with seqMapping := alistInsert c.seqMapping f sm' }
    match alistLookup c1.feedMap f with
    | none => (.error .panicked, c1)
    | some item =>
      let item' := { item with size := size }
      let c2 := { c1 with feedMap := alistInsert c1.feedMap f item' }
      match ListSt.modify feedKey c2.feedList f item' with
      | .ok fl' => (.ok item.size, { c2 with feedList := fl' })
      | .error e => (.error e, c2)

/-- `get_dataset_size` loop (dataset.rs lines 19-30): `acc` is the length of
the first series, `InvalidData` on the first differing length. -/
def getDatasetSizeGo : List (String × List Dataunit) → Option Nat →
    Except IOErr Nat
  | [], acc => .ok (acc.getD 0)
  | (_, v) :: rest, none => getDatasetSizeGo rest (some v.length)
  | (_, v) :: rest, some n =>
      if some n = some v.length then getDatasetSizeGo rest (some n)
      else .error .invalidData

/-- `get_dataset_size` (dataset.rs lines 19-30). -/
def get_dataset_size (ds : List (String × List Dataunit)) : Except IOErr Nat :=
  getDatasetSizeGo ds none

/-- One series encoded: `to_bytes(unit).unwrap()` for each unit,
concatenated; a `None` (tag mismatch) or an invalid-base64 panic aborts the
call. -/
def encodeSeries (dt : Datatype) : List Dataunit → Except IOErr (List Nat)
  | [] => .ok []
  | u :: rest =>
      match dt.to_bytes u with
      | .ok b => (encodeSeries dt rest).map fun bs => b ++ bs
      | _ => .error .panicked

/-- The block written for a column by `_data_update`: the encoded series if
the column is in the dataset, else `size * datatype.size()` zero bytes. -/
def blockFor (ci : ColItem) (ds : List (String × List Dataunit)) (n : Nat)
    (cn : String) : Except IOErr (List Nat) :=
  match alistLookup ds cn with
  | some series => encodeSeries ci.datatype series
  | none => .ok (zeros (n * ci.datatype.size))

/-- The per-column fan-out of `_data_update` (conn.rs lines 414-444): look up
the column's item (indexing panics if absent), build the block, look up the
`Seq` (panics if absent) and issue `Seq::update`; the spawned tasks' results
are discarded by `join_all`.  Returns the task-spawn outcome and the map of
`Seq`s (files written before a panic stay written). -/
def updateCols (cmm : List (String × ColItem))
    (ds : List (String × List Dataunit)) (n ix : Nat) :
    List (String × SeqSt) → List String →
    Except IOErr Unit × List (String × SeqSt)
  | m, [] => (.ok (), m)
  | m, cn :: rest =>
      match alistLookup cmm cn with
      | none => (.error .panicked, m)
      | some ci =>
        match blockFor ci ds n cn with
        | .error e => (.error e, m)
        | .ok block =>
          match alistLookup m cn with
          | none => (.error .panicked, m)
          | some sq =>
              updateCols cmm ds n ix
                (alistInsert m cn ((Seq.update sq ix block).toOption.getD sq))
                rest

/-- `Conn::_data_update` (conn.rs lines 405-448). -/
def Conn.data_update (c : ConnSt) (f : String) (ix : Nat)
    (ds : List (String × List Dataunit)) (cols : List String) :
    Except IOErr Unit × ConnSt :=
  match get_dataset_size ds with
  | .error e => (.error e, c)
  | .ok n =>
    if 0 < n then
      match alistLookup c.colMapMapping f with
      | none => (.error .panicked, c)
      | some cmm =>
        match alistLookup c.seqMapping f with
        | none => (.error .panicked, c)
        | some sm =>
          match updateCols cmm ds n ix sm cols with
          | (r, sm') =>
              (r, { c with seqMapping := alistInsert c.seqMapping f sm' })
    else (.ok (), c)

/-- `Conn::data_patch` (conn.rs lines 364-372): update only the dataset's
columns. -/
def Conn.data_patch (c : ConnSt) (f : String) (ix : Nat)
    (ds : List (String × List Dataunit)) : Except IOErr Unit × ConnSt :=
  Conn.data_update c f ix ds (alistKeys ds)

/-- `Conn::data_save` (conn.rs lines 353-362): update every column of the
feed. -/
def Conn.data_save (c : ConnSt) (f : String) (ix : Nat)
    (ds : List (String × List Dataunit)) : Except IOErr Unit × ConnSt :=
  match alistLookup c.colMapMapping f with
  | none => (.error .panicked, c)
  | some cmm => Conn.data_update c f ix ds (alistKeys cmm)

/-- `Conn::data_push` (conn.rs lines 332-351): compute the dataset size
(rejecting ragged datasets before any mutation), no-op when empty, else
`size_set(f, ix + n)` then `data_patch(f, ix, ds)`. -/
def Conn.data_push (c : ConnSt) (f : String)
    (ds : List (String × List Dataunit)) : Except IOErr Unit × ConnSt :=
  match get_dataset_size ds with
  | .error e => (.error e, c)
  | .ok n =>
    if 0 < n then
      match alistLookup c.feedMap f with
      | none => (.error .panicked, c)
      | some item =>
        match Conn.size_set c f (item.size + n) with
        | (.ok _, c1) => Conn.data_patch c1 f item.size ds
        | (.error e, c1) => (.error e, c1)
    else (.ok (), c)

/-- Move a directory: rekey the per-feed filesystem entry (used for
`tokio::fs::rename` of the feed directory). -/
def renameKey {V : Type} (m : List (String × V)) (old new : String) :
    List (String × V) :=
  match alistLookup m old with
  | some v => alistInsert (alistErase m old) new v
  | none => m

/-- `Conn::_feed_close` (conn.rs lines 495-505): drop the feed's open
handles from the three per-feed maps and remove its `FeedItem` from
`feed_map` (`unwrap` panic modelled by `none`).  Closing writes nothing: the
files keep their contents, which the model records in the disk fields. -/
def Conn.feed_close (c : ConnSt) (f : String) : Option FeedItem × ConnSt :=
  let seqs := (alistLookup c.seqMapping f).getD []
  let colRecords :=
    match alistLookup c.colListMapping f with
    | some cl => cl.col
    | none => []
  (alistLookup c.feedMap f,
   { c with
     seqMapping := alistErase c.seqMapping f,
     colListMapping := alistErase c.colListMapping f,
     colMapMapping := alistErase c.colMapMapping f,
     feedMap := alistErase c.feedMap f,
     diskSeqs := alistInsert c.diskSeqs f seqs,
     diskColLists := alistInsert c.diskColLists f colRecords })

/-- `Conn::_feed_open` (conn.rs lines 471-493): open the feed's `col.list`
(`List::new` reads the records and rebuilds the index; a missing file is
created empty), then `_col_open` every column — a `Seq` handle with
`block_size = datatype.size()` over the column's file — and finally publish
the feed in `feed_map`. -/
def Conn.feed_open (c : ConnSt) (f : String) (item : FeedItem) :
    Except IOErr ConnSt :=
  let records := (alistLookup c.diskColLists f).getD []
  let colList : ListSt ColItem String := ListSt.new colKey records
  let colMap := ListSt.toMap colKey colList
  let diskSm := (alistLookup c.diskSeqs f).getD []
  let sm := colMap.map fun p =>
    (p.1,
     { data :=
         (match alistLookup diskSm p.1 with
          | some sq => sq.data
          | none => []),
       blockSize := p.2.datatype.size,
       fault :=
         (match alistLookup diskSm p.1 with
          | some sq => sq.fault
          | none => false) : SeqSt })
  .ok { c with
    colMapMapping := alistInsert c.colMapMapping f colMap,
    seqMapping := alistInsert c.seqMapping f sm,
    feedMap := alistInsert c.feedMap f item,
    colListMapping := alistInsert c.colListMapping f colList,
    diskColLists := alistErase c.diskColLists f,
    diskSeqs := alistErase c.diskSeqs f }

/-- `Conn::feed_rename` (conn.rs lines 131-157): presence checks, close the
feed, `feed_item.rename(name_new)` — whose `Result` the source DISCARDS
(line 143), so a failed validation keeps the old name and continues —
persist through `feed_list.modify`, move the directory, reopen under the new
name. -/
def Conn.feed_rename (c : ConnSt) (name name_new : String) :
    Except IOErr Unit × ConnSt :=
  if ¬ Conn.feed_exists c name then (.error .notFound, c)
  else if Conn.feed_exists c name_new then (.error .alreadyExists, c)
  else
    match Conn.feed_close c name with
    | (none, c1) => (.error .panicked, c1)
    | (some item, c1) =>
      let item' := (FeedItem.rename item name_new).toOption.getD item
      match ListSt.modify feedKey c1.feedList name item' with
      | .error e => (.error e, c1)
      | .ok fl' =>
        let c2 := { c1 with feedList := fl' }
        let c3 := { c2 with
          diskColLists := renameKey c2.diskColLists name name_new,
          diskSeqs := renameKey c2.diskSeqs name name_new }
        match Conn.feed_open c3 name_new item' with
        | .ok c4 => (.ok (), c4)
        | .error e => (.error e, c3)

/-- C2: a feed `f` of size 1 with a single `Int64` column `x` whose file
rejects the resize (`fault := true`).  `Seq::resize` fails with an I/O
error, yet `size_set(f, 2)` returns `Ok(1)` — `join_all`'s results are
discarded — and the feed-size record is advanced to 2 both in `feed_map` and
in the persisted feed list, while the column file still holds 8 bytes. -/
theorem c2_size_set_swallows_resize_error :
    Seq.resize ⟨zeros 8, 8, true⟩ 2 = .error .ioFailure ∧
    ∃ c1 : ConnSt,
      Conn.size_set
        { feedList := ⟨[⟨"f", 1⟩], [("f", 0)]⟩,
          feedMap := [("f", ⟨"f", 1⟩)],
          colListMapping := [("f", ⟨[⟨"x", .Int64⟩], [("x", 0)]⟩)],
          colMapMapping := [("f", [("x", ⟨"x", .Int64⟩)])],
          seqMapping := [("f", [("x", ⟨zeros 8, 8, true⟩)])],
          diskColLists := [],
          diskSeqs := [] } "f" 2 = (.ok 1, c1) ∧
      alistLookup c1.feedMap "f" = some ⟨"f", 2⟩ ∧
      c1.feedList.col = [⟨"f", 2⟩] ∧
      alistLookup ((alistLookup c1.seqMapping "f").getD []) "x" =
        some ⟨zeros 8, 8, true⟩ :=
  ⟨rfl, _, rfl, rfl, rfl, rfl⟩

/-- C7: renaming the feed `abc` to the regex-invalid name `bad-name`
succeeds instead of failing with `InvalidInput`: the `Result` of
`FeedItem::rename` is discarded (conn.rs line 143), so the operation
completes, the in-memory catalog is rekeyed to `bad-name`, and the stored
item still carries the old name `abc`. -/
theorem c7_feed_rename_ignores_validation :
    validate_allowed_name ("bad-name") = .error .invalidInput ∧
    ∃ c1 : ConnSt,
      Conn.feed_rename
        { feedList := ⟨[⟨"abc", 0⟩], [("abc", 0)]⟩,
          feedMap := [("abc", ⟨"abc", 0⟩)],
          colListMapping := [("abc", ⟨[], []⟩)],
          colMapMapping := [("abc", [])],
          seqMapping := [("abc", [])],
          diskColLists := [],
          diskSeqs := [] } "abc" "bad-name" = (.ok (), c1) ∧
      alistLookup c1.feedMap "bad-name" = some ⟨"abc", 0⟩ ∧
      alistLookup c1.feedMap "abc" = none :=
  ⟨rfl, _, rfl, rfl, rfl⟩

/-! ### Lemmas for the dataset write paths -/

/-- The claim's "all series have the same length". -/
def allSameLen (ds : List (String × List Dataunit)) : Prop :=
  ∀ p q, p ∈ ds → q ∈ ds → p.2.length = q.2.length

theorem getDatasetSizeGo_error (ds : List (String × List Dataunit))
    (acc : Option Nat) (e : IOErr) (h : getDatasetSizeGo ds acc = .error e) :
    e = .invalidData := by
  induction ds generalizing acc with
  | nil => simp [getDatasetSizeGo] at h
  | cons p rest ih =>
      obtain ⟨k, v⟩ := p
      cases acc with
      | none => exact ih _ h
      | some n =>
          by_cases hn : some n = some v.length
          · rw [getDatasetSizeGo, if_pos hn] at h
            exact ih _ h
          · rw [getDatasetSizeGo, if_neg hn] at h
            injection h with h1
            exact h1.symm

theorem getDatasetSizeGo_ok_acc (ds : List (String × List Dataunit))
    (m n : Nat) (h : getDatasetSizeGo ds (some m) = .ok n) :
    m = n ∧ ∀ p ∈ ds, p.2.length = n := by
  induction ds generalizing m with
  | nil =>
      rw [getDatasetSizeGo] at h
      injection h with h1
      exact ⟨by simpa using h1, by simp⟩
  | cons p rest ih =>
      obtain ⟨k, v⟩ := p
      by_cases hn : some m = some v.length
      · rw [getDatasetSizeGo, if_pos hn] at h
        obtain ⟨hm, hrest⟩ := ih m h
        subst hm
        refine ⟨rfl, ?_⟩
        intro q hq
        rcases List.mem_cons.mp hq with hq | hq
        · simp [hq]
          injection hn with h2
          exact h2.symm
        · exact hrest q hq
      · rw [getDatasetSizeGo, if_neg hn] at h
        exact Except.noConfusion h

theorem get_dataset_size_lengths (ds : List (String × List Dataunit)) (n : Nat)
    (h : get_dataset_size ds = .ok n) : ∀ p ∈ ds, p.2.length = n := by
  cases ds with
  | nil => simp
  | cons p rest =>
      obtain ⟨k, v⟩ := p
      unfold get_dataset_size getDatasetSizeGo at h
      obtain ⟨hm, hrest⟩ := getDatasetSizeGo_ok_acc rest v.length n h
      intro q hq
      rcases List.mem_cons.mp hq with hq | hq
      · simp [hq, hm]
      · exact hrest q hq

theorem get_dataset_size_ragged (ds : List (String × List Dataunit))
    (h : ¬ allSameLen ds) : get_dataset_size ds = .error .invalidData := by
  cases hg : get_dataset_size ds with
  | ok n =>
      exact absurd
        (fun p q hp hq => by
          rw [get_dataset_size_lengths ds n hg p hp,
            get_dataset_size_lengths ds n hg q hq]) h
  | error e => rw [getDatasetSizeGo_error ds none e hg]

theorem alistLookup_map {K V W : Type} [DecidableEq K]
    (g : V → W) (m : List (K × V)) (k : K) :
    alistLookup (m.map fun p => (p.1, g p.2)) k =
      (alistLookup m k).map g := by
  induction m with
  | nil => rfl
  | cons p rest ih =>
      obtain ⟨a, v⟩ := p
      by_cases hak : a = k <;> simp [alistLookup, hak, ih]

theorem alistLookup_isSome_of_mem_keys {K V : Type} [DecidableEq K]
    (m : List (K × V)) (k : K) (h : k ∈ alistKeys m) :
    (alistLookup m k).isSome = true := by
  induction m with
  | nil => simp [alistKeys] at h
  | cons p rest ih =>
      obtain ⟨a, v⟩ := p
      by_cases hak : a = k
      · simp [alistLookup, hak]
      · rcases List.mem_cons.mp h with h1 | h1
        · exact absurd h1.symm hak
        · simpa [alistLookup, hak] using ih h1

theorem alistLookup_eq_none_of_not_mem_keys {K V : Type} [DecidableEq K]
    (m : List (K × V)) (k : K) (h : k ∉ alistKeys m) :
    alistLookup m k = none := by
  induction m with
  | nil => rfl
  | cons p rest ih =>
      obtain ⟨a, v⟩ := p
      rw [show alistKeys ((a, v) :: rest) = a :: alistKeys rest from rfl] at h
      simp only [List.mem_cons, not_or] at h
      have ha : ¬ a = k := fun hh => h.1 hh.symm
      simp [alistLookup, ha, ih h.2]

theorem mem_keys_of_alistLookup_isSome {K V : Type} [DecidableEq K]
    (m : List (K × V)) (k : K) (h : (alistLookup m k).isSome = true) :
    k ∈ alistKeys m := by
  by_contra hmem
  rw [alistLookup_eq_none_of_not_mem_keys m k hmem] at h
  exact Bool.noConfusion h

theorem encodeSeries_length (dt : Datatype) (hc : dt.canonical = true) :
    ∀ (series : List Dataunit) (bs : List Nat),
      encodeSeries dt series = .ok bs → bs.length = series.length * dt.size
  | [], bs, h => by
      injection h with h1
      simp [← h1]
  | u :: rest, bs, h => by
      unfold encodeSeries at h
      cases hb : dt.to_bytes u with
      | ok b =>
          rw [hb] at h
          cases hrest : encodeSeries dt rest with
          | ok bs' =>
              rw [hrest] at h
              injection h with h1
              rw [← h1]
              have := encodeSeries_length dt hc rest bs' hrest
              have hlen := to_bytes_length_canonical dt u b hc hb
              simp [this, hlen]
              ring
          | error e =>
              rw [hrest] at h
              exact Except.noConfusion h
      | panic => rw [hb] at h; exact Except.noConfusion h
      | mismatch => rw [hb] at h; exact Except.noConfusion h

/-- A fault-free resize from `ix` rows to `ix + n` rows appends
`n * block_size` zero bytes. -/
theorem resize_grow (sq : SeqSt) (ix n : Nat) (hf : sq.fault = false)
    (hlen : sq.data.length = ix * sq.blockSize) :
    Seq.resize sq (ix + n) =
      .ok { sq with data := sq.data ++ zeros (n * sq.blockSize) } := by
  unfold Seq.resize
  rw [if_neg (by rw [hf]; exact Bool.false_ne_true)]
  have h1 : (ix + n) * sq.blockSize = sq.data.length + n * sq.blockSize := by
    rw [hlen]
    ring
  have hdata : sq.data.take ((ix + n) * sq.blockSize) ++
      zeros ((ix + n) * sq.blockSize - sq.data.length) =
      sq.data ++ zeros (n * sq.blockSize) := by
    rw [h1, List.take_of_length_le (by omega), Nat.add_sub_cancel_left]
  rw [hdata]

/-- A fault-free write of `b` at row `ix` over a region of exactly `b`'s
length replaces that region and nothing else. -/
theorem update_frame (pre mid post b : List Nat) (bs ix : Nat)
    (hpre : pre.length = ix * bs) (hmid : mid.length = b.length) :
    Seq.update ⟨pre ++ mid ++ post, bs, false⟩ ix b =
      .ok ⟨pre ++ b ++ post, bs, false⟩ := by
  unfold Seq.update
  rw [if_neg Bool.false_ne_true]
  congr 1
  simp only []
  have hdata : (pre ++ mid ++ post) = pre ++ (mid ++ post) := by
    rw [List.append_assoc]
  have h1 : (pre ++ mid ++ post).take (ix * bs) = pre := by
    rw [hdata, ← hpre, List.take_left]
  have h2 : zeros (ix * bs - (pre ++ mid ++ post).length) = [] := by
    rw [← hpre]
    simp [zeros]
  have h3 : (pre ++ mid ++ post).drop (ix * bs + b.length) = post := by
    rw [hdata, ← hpre, ← hmid, ← List.drop_drop, List.drop_left,
      List.drop_left]
  rw [h1, h2, h3]
  simp

/-- Fan-out master lemma: when every listed column has a catalog entry, an
encodable block and a fault-free `Seq`, the `_data_update` loop succeeds;
unlisted columns keep their `Seq`s, and each listed column's `Seq` receives
exactly its `Seq::update`. -/
theorem updateCols_spec (cmm : List (String × ColItem))
    (ds : List (String × List Dataunit)) (n ix : Nat) :
    ∀ (cols : List String) (m : List (String × SeqSt)),
      cols.Nodup →
      (∀ cn ∈ cols, ∃ ci, alistLookup cmm cn = some ci ∧
        ∃ b, blockFor ci ds n cn = .ok b) →
      (∀ cn ∈ cols, (alistLookup m cn).isSome = true) →
      ∃ m', updateCols cmm ds n ix m cols = (.ok (), m') ∧
        (∀ cn, cn ∉ cols → alistLookup m' cn = alistLookup m cn) ∧
        (∀ cn ∈ cols, ∀ ci b sq, alistLookup cmm cn = some ci →
          blockFor ci ds n cn = .ok b → alistLookup m cn = some sq →
          alistLookup m' cn =
            some ((Seq.update sq ix b).toOption.getD sq))
  | [], m, _, _, _ => ⟨m, rfl, fun _ _ => rfl, by simp⟩
  | cn :: rest, m, hnd, hcm, hsq => by
      obtain ⟨hcn_rest, hnd_rest⟩ := List.nodup_cons.mp hnd
      obtain ⟨ci, hci, b, hb⟩ := hcm cn (List.mem_cons_self cn rest)
      obtain ⟨sq, hsqv⟩ :=
        Option.isSome_iff_exists.mp (hsq cn (List.mem_cons_self cn rest))
      have hne : ∀ cn' ∈ rest, cn ≠ cn' :=
        fun cn' hmem heq => hcn_rest (heq ▸ hmem)
      obtain ⟨m', hrun, hout, hin⟩ :=
        updateCols_spec cmm ds n ix rest
          (alistInsert m cn ((Seq.update sq ix b).toOption.getD sq))
          hnd_rest
          (fun cn' hmem => hcm cn' (List.mem_cons_of_mem cn hmem))
          (fun cn' hmem => by
            rw [alistLookup_insert_ne _ _ (hne cn' hmem)]
            exact hsq cn' (List.mem_cons_of_mem cn hmem))
      refine ⟨m', ?_, ?_, ?_⟩
      · rw [updateCols, hci]
        dsimp only
        rw [hb]
        dsimp only
        rw [hsqv]
        exact hrun
      · intro cn'' hnotin
        have h1 : cn'' ∉ rest := fun hh => hnotin (List.mem_cons_of_mem cn hh)
        have h2 : cn ≠ cn'' := fun hh => hnotin (hh ▸ List.mem_cons_self cn rest)
        rw [hout cn'' h1, alistLookup_insert_ne _ _ h2]
      · intro cn'' hmem ci' b' sq' hci' hb' hsq'
        rcases List.mem_cons.mp hmem with rfl | hmem'
        · rw [hci] at hci'
          injection hci' with hcie
          subst hcie
          rw [hb] at hb'
          injection hb' with hbe
          subst hbe
          rw [hsqv] at hsq'
          injection hsq' with hsqe
          subst hsqe
          rw [hout cn'' hcn_rest, alistLookup_insert_self]
        · have h2 : cn ≠ cn'' := hne cn'' hmem'
          refine hin cn'' hmem' ci' b' sq' hci' hb' ?_
          rw [alistLookup_insert_ne _ _ h2]
          exact hsq'

/-- `size_set` on a well-formed state: every column's `Seq` is resized (with
`join_all` results discarded), the feed record is set to the new size in
`feed_map` and updated in place in the feed list, and the old size is
returned. -/
theorem size_set_ok (c : ConnSt) (f : String) (size : Nat)
    (sm : List (String × SeqSt)) (item : FeedItem) (j : Nat)
    (hsm : alistLookup c.seqMapping f = some sm)
    (hitem : alistLookup c.feedMap f = some item)
    (hkey : item.name = f)
    (hfl : alistLookup c.feedList.ixmap f = some j) :
    Conn.size_set c f size =
      (.ok item.size,
       { c with
         seqMapping := alistInsert c.seqMapping f
           (sm.map fun p => (p.1, (Seq.resize p.2 size).toOption.getD p.2)),
         feedMap := alistInsert c.feedMap f { item with size := size },
         feedList := { col := colUpdate c.feedList.col j { item with size := size },
                       ixmap := c.feedList.ixmap } }) := by
  unfold Conn.size_set
  rw [hsm]
  dsimp only
  rw [hitem]
  dsimp only
  rw [ListSt.modify, hfl]
  dsimp only
  rw [if_pos (show feedKey { item with size := size } = f from hkey)]

theorem alistLookup_mem {K V : Type} [DecidableEq K]
    (m : List (K × V)) (k : K) (v : V) (h : alistLookup m k = some v) :
    (k, v) ∈ m := by
  induction m with
  | nil => exact Option.noConfusion h
  | cons p rest ih =>
      obtain ⟨a, w⟩ := p
      by_cases hak : a = k
      · rw [alistLookup, if_pos hak] at h
        injection h with h1
        subst hak h1
        exact List.mem_cons_self _ _
      · rw [alistLookup, if_neg hak] at h
        exact List.mem_cons_of_mem _ (ih h)

theorem alistLookup_resizeMap (sm : List (String × SeqSt)) (k : String)
    (n : Nat) :
    alistLookup (sm.map fun p =>
      (p.1, (Seq.resize p.2 n).toOption.getD p.2)) k =
      (alistLookup sm k).map fun sq => (Seq.resize sq n).toOption.getD sq :=
  alistLookup_map (fun sq => (Seq.resize sq n).toOption.getD sq) sm k

/-- C4: `data_push` on a well-formed open feed (columns catalogued with
canonical datatypes, every dataset column present with an encodable series,
fault-free files of exactly `feed.size` rows).  A ragged dataset yields
`InvalidData` with the state untouched; an empty dataset is a no-op; a
dataset of size `n > 0` sets the feed size to `ix + n` (`ix` the old size)
and appends each encoded series at row offset `ix` of its column. -/
theorem c4_data_push_spec (c : ConnSt) (f : String)
    (ds : List (String × List Dataunit))
    (sm : List (String × SeqSt)) (cmm : List (String × ColItem))
    (item : FeedItem) (j : Nat)
    (hsm : alistLookup c.seqMapping f = some sm)
    (hcmm : alistLookup c.colMapMapping f = some cmm)
    (hitem : alistLookup c.feedMap f = some item)
    (hkey : item.name = f)
    (hfl : alistLookup c.feedList.ixmap f = some j)
    (hks : (alistKeys ds).Nodup)
    (hcols : ∀ cn ∈ alistKeys ds, ∃ ci, alistLookup cmm cn = some ci ∧
        ci.datatype.canonical = true ∧ (alistLookup sm cn).isSome = true)
    (henc : ∀ cn series, alistLookup ds cn = some series →
        ∀ ci, alistLookup cmm cn = some ci →
          ∃ b, encodeSeries ci.datatype series = .ok b)
    (hfault : ∀ cn sq, alistLookup sm cn = some sq → sq.fault = false)
    (hlen : ∀ cn sq, alistLookup sm cn = some sq →
        sq.data.length = item.size * sq.blockSize)
    (hbs : ∀ cn ci sq, alistLookup cmm cn = some ci →
        alistLookup sm cn = some sq → sq.blockSize = ci.datatype.size) :
    (¬ allSameLen ds → Conn.data_push c f ds = (.error .invalidData, c)) ∧
    (get_dataset_size ds = .ok 0 → Conn.data_push c f ds = (.ok (), c)) ∧
    (∀ n, get_dataset_size ds = .ok n → 0 < n →
      ∃ c2, Conn.data_push c f ds = (.ok (), c2) ∧
        Conn.size_get c2 f = .ok (item.size + n) ∧
        (∀ cn series, alistLookup ds cn = some series →
          ∃ sq ci b, alistLookup sm cn = some sq ∧
            alistLookup cmm cn = some ci ∧
            encodeSeries ci.datatype series = .ok b ∧
            alistLookup ((alistLookup c2.seqMapping f).getD []) cn =
              some { sq with data := sq.data ++ b })) := by
  refine ⟨?_, ?_, ?_⟩
  · intro hragged
    unfold Conn.data_push
    rw [get_dataset_size_ragged ds hragged]
  · intro h0
    unfold Conn.data_push
    rw [h0]
    simp
  · intro n hn hpos
    unfold Conn.data_push
    rw [hn]
    dsimp only
    rw [if_pos hpos, hitem]
    try dsimp only
    rw [size_set_ok c f (item.size + n) sm item j hsm hitem hkey hfl]
    try dsimp only
    unfold Conn.data_patch Conn.data_update
    rw [hn]
    try dsimp only
    rw [if_pos hpos]
    try dsimp only
    rw [hcmm]
    try dsimp only
    rw [alistLookup_insert_self]
    try dsimp only
    obtain ⟨m', hrun, hout, hin⟩ :=
      updateCols_spec cmm ds n item.size (alistKeys ds)
        (sm.map fun p =>
          (p.1, (Seq.resize p.2 (item.size + n)).toOption.getD p.2))
        hks
        (fun cn hmem => by
          obtain ⟨ci, hci, hcanon, hsmS⟩ := hcols cn hmem
          obtain ⟨series, hser⟩ := Option.isSome_iff_exists.mp
            (alistLookup_isSome_of_mem_keys ds cn hmem)
          obtain ⟨b, hb⟩ := henc cn series hser ci hci
          exact ⟨ci, hci, b, by unfold blockFor; rw [hser]; exact hb⟩)
        (fun cn hmem => by
          obtain ⟨ci, hci, hcanon, hsmS⟩ := hcols cn hmem
          rw [alistLookup_resizeMap]
          simpa using hsmS)
    rw [hrun]
    refine ⟨_, rfl, ?_, ?_⟩
    · unfold Conn.size_get
      dsimp only
      rw [alistLookup_insert_self]
    · intro cn series hser
      have hmem : cn ∈ alistKeys ds :=
        mem_keys_of_alistLookup_isSome ds cn (by rw [hser]; rfl)
      obtain ⟨ci, hci, hcanon, hsmS⟩ := hcols cn hmem
      obtain ⟨sq0, hsq0⟩ := Option.isSome_iff_exists.mp hsmS
      obtain ⟨b, hbenc⟩ := henc cn series hser ci hci
      have hb : blockFor ci ds n cn = .ok b := by
        unfold blockFor
        rw [hser]
        exact hbenc
      refine ⟨sq0, ci, b, hsq0, hci, hbenc, ?_⟩
      have hf0 := hfault cn sq0 hsq0
      have hl0 := hlen cn sq0 hsq0
      have hbs0 := hbs cn ci sq0 hci hsq0
      have hblen : b.length = n * sq0.blockSize := by
        rw [encodeSeries_length ci.datatype hcanon series b hbenc]
        rw [get_dataset_size_lengths ds n hn (cn, series)
          (alistLookup_mem ds cn series hser)]
        rw [hbs0]
      obtain ⟨d0, bs0, f0⟩ := sq0
      simp only [] at hf0 hl0 hbs0 hblen
      subst hf0
      have hsq1 : alistLookup
          (sm.map fun p =>
            (p.1, (Seq.resize p.2 (item.size + n)).toOption.getD p.2)) cn =
          some ⟨d0 ++ zeros (n * bs0), bs0, false⟩ := by
        rw [alistLookup_resizeMap, hsq0]
        dsimp only [Option.map]
        rw [resize_grow ⟨d0, bs0, false⟩ item.size n rfl hl0]
        rfl
      have hthis := hin cn hmem ci b ⟨d0 ++ zeros (n * bs0), bs0, false⟩
        hci hb hsq1
      have hupd : (Seq.update ⟨d0 ++ zeros (n * bs0), bs0, false⟩ item.size
          b).toOption.getD ⟨d0 ++ zeros (n * bs0), bs0, false⟩ =
          ⟨d0 ++ b, bs0, false⟩ := by
        have h := update_frame d0 (zeros (n * bs0)) [] b bs0 item.size hl0
          (by simp [hblen])
        have h2 : Seq.update ⟨d0 ++ zeros (n * bs0), bs0, false⟩ item.size b =
            .ok ⟨d0 ++ b, bs0, false⟩ := by simpa using h
        rw [h2]
        rfl
      rw [hupd] at hthis
      try dsimp only
      rw [alistLookup_insert_self]
      exact hthis

theorem alistLookup_singleton {K V : Type} [DecidableEq K] (a : K) (v : V)
    (k : K) (w : V) (h : alistLookup [(a, v)] k = some w) : k = a ∧ w = v := by
  by_cases hak : a = k
  · rw [alistLookup, if_pos hak] at h
    injection h with h1
    exact ⟨hak.symm, h1.symm⟩
  · rw [alistLookup, if_neg hak] at h
    exact Option.noConfusion h

/-- A one-feed, one-`Int64`-column connection with no rows, used to witness
the dataset-write theorems. -/
def c4Conn : ConnSt :=
  { feedList := ⟨[⟨"f", 0⟩], [("f", 0)]⟩,
    feedMap := [("f", ⟨"f", 0⟩)],
    colListMapping := [("f", ⟨[⟨"x", .Int64⟩], [("x", 0)]⟩)],
    colMapMapping := [("f", [("x", ⟨"x", .Int64⟩)])],
    seqMapping := [("f", [("x", ⟨[], 8, false⟩)])],
    diskColLists := [],
    diskSeqs := [] }

/-- C4 witness: pushing `{x: [I 5]}` into the empty feed `f`. -/
theorem c4_data_push_spec_witness :
    (alistKeys [("x", [Dataunit.I 5])]).Nodup ∧
    ∃ c2, Conn.data_push c4Conn "f" [("x", [Dataunit.I 5])] = (.ok (), c2) ∧
      Conn.size_get c2 "f" = .ok 1 ∧
      (∀ cn series,
        alistLookup [("x", [Dataunit.I 5])] cn = some series →
        ∃ sq ci b,
          alistLookup [("x", (⟨[], 8, false⟩ : SeqSt))] cn = some sq ∧
          alistLookup [("x", (⟨"x", .Int64⟩ : ColItem))] cn = some ci ∧
          encodeSeries ci.datatype series = .ok b ∧
          alistLookup ((alistLookup c2.seqMapping "f").getD []) cn =
            some { sq with data := sq.data ++ b }) :=
  ⟨by decide,
   (c4_data_push_spec c4Conn "f" [("x", [Dataunit.I 5])]
      [("x", ⟨[], 8, false⟩)] [("x", ⟨"x", .Int64⟩)] ⟨"f", 0⟩ 0
      rfl rfl rfl rfl rfl (by decide)
      (fun cn hmem => by
        have hcn : cn = "x" := by simpa [alistKeys] using hmem
        subst hcn
        exact ⟨⟨"x", .Int64⟩, rfl, rfl, rfl⟩)
      (fun cn series hser ci hci => by
        obtain ⟨hcn, hv⟩ := alistLookup_singleton _ _ _ _ hser
        obtain ⟨-, hci2⟩ := alistLookup_singleton _ _ _ _ hci
        subst hv
        subst hci2
        exact ⟨_, rfl⟩)
      (fun cn sq h => by
        obtain ⟨-, hv⟩ := alistLookup_singleton _ _ _ _ h
        rw [hv])
      (fun cn sq h => by
        obtain ⟨-, hv⟩ := alistLookup_singleton _ _ _ _ h
        rw [hv]
        rfl)
      (fun cn ci sq hci hsq => by
        obtain ⟨-, hci2⟩ := alistLookup_singleton _ _ _ _ hci
        obtain ⟨-, hsq2⟩ := alistLookup_singleton _ _ _ _ hsq
        rw [hci2, hsq2]
        rfl)).2.2 1 rfl (by decide)⟩

/-- A fault-free `Seq::update` of `n` rows at row `ix`, inside a file of at
least `ix + n` rows, replaces exactly the byte range
`[ix * bs, (ix + n) * bs)` and nothing else. -/
theorem update_inplace (sq : SeqSt) (ix n : Nat) (b : List Nat)
    (hf : sq.fault = false)
    (hroom : (ix + n) * sq.blockSize ≤ sq.data.length)
    (hb : b.length = n * sq.blockSize) :
    Seq.update sq ix b =
      .ok { sq with data :=
        (sq.data.take (ix * sq.blockSize) ++ b ++
          sq.data.drop ((ix + n) * sq.blockSize)) } := by
  obtain ⟨d, bs, fl⟩ := sq
  simp only [] at hf hroom hb ⊢
  subst hf
  have hAB : (ix + n) * bs = ix * bs + n * bs := by ring
  rw [hAB] at hroom ⊢
  have hpre : (d.take (ix * bs)).length = ix * bs := by
    rw [List.length_take]
    omega
  have hmid : ((d.drop (ix * bs)).take (n * bs)).length = n * bs := by
    rw [List.length_take, List.length_drop]
    omega
  have hdecomp : d = d.take (ix * bs) ++ (d.drop (ix * bs)).take (n * bs) ++
      d.drop (ix * bs + n * bs) := by
    rw [List.append_assoc]
    have h1 : (d.drop (ix * bs)).take (n * bs) ++ d.drop (ix * bs + n * bs) =
        d.drop (ix * bs) := by
      have h2 : d.drop (ix * bs + n * bs) = (d.drop (ix * bs)).drop (n * bs) := by
        rw [List.drop_drop]
      rw [h2, List.take_append_drop]
    rw [h1, List.take_append_drop]
  conv_lhs => rw [hdecomp]
  have hres := update_frame (d.take (ix * bs)) ((d.drop (ix * bs)).take (n * bs))
    (d.drop (ix * bs + n * bs)) b bs ix hpre (by rw [hmid, hb])
  rw [hres]

/-- C5: over a well-formed open feed and a valid dataset of size `n > 0`
written at row offset `ix` within the allocated rows: `data_save` updates
every column of the feed — the block is the encoded series for columns in
the dataset and `n * datatype.size()` zero bytes for absent ones — while
`data_patch` updates exactly the dataset's columns and leaves every other
column's bytes untouched; in both, a written column's bytes outside
`[ix * bs, (ix + n) * bs)` are unchanged (the conclusion exhibits the final
contents as `take (ix * bs) ++ block ++ drop ((ix + n) * bs)`). -/
theorem c5_data_save_patch_frame (c : ConnSt) (f : String)
    (ds : List (String × List Dataunit))
    (sm : List (String × SeqSt)) (cmm : List (String × ColItem)) (n ix : Nat)
    (hsm : alistLookup c.seqMapping f = some sm)
    (hcmm : alistLookup c.colMapMapping f = some cmm)
    (hn : get_dataset_size ds = .ok n) (hpos : 0 < n)
    (hckeys : (alistKeys cmm).Nodup)
    (hdkeys : (alistKeys ds).Nodup)
    (hsub : ∀ cn ∈ alistKeys ds, cn ∈ alistKeys cmm)
    (hfeedcols : ∀ cn ∈ alistKeys cmm, ∃ ci, alistLookup cmm cn = some ci ∧
        ci.datatype.canonical = true ∧ (alistLookup sm cn).isSome = true)
    (henc : ∀ cn series, alistLookup ds cn = some series →
        ∀ ci, alistLookup cmm cn = some ci →
          ∃ b, encodeSeries ci.datatype series = .ok b)
    (hfault : ∀ cn sq, alistLookup sm cn = some sq → sq.fault = false)
    (hroom : ∀ cn sq, alistLookup sm cn = some sq →
        (ix + n) * sq.blockSize ≤ sq.data.length)
    (hbs : ∀ cn ci sq, alistLookup cmm cn = some ci →
        alistLookup sm cn = some sq → sq.blockSize = ci.datatype.size) :
    (∃ cS, Conn.data_save c f ix ds = (.ok (), cS) ∧
      (∀ cn ci sq, alistLookup cmm cn = some ci →
        alistLookup sm cn = some sq →
        ∃ b,
          alistLookup ((alistLookup cS.seqMapping f).getD []) cn =
            some { sq with data :=
              (sq.data.take (ix * sq.blockSize) ++ b ++
                sq.data.drop ((ix + n) * sq.blockSize)) } ∧
          (∀ series, alistLookup ds cn = some series →
            encodeSeries ci.datatype series = .ok b) ∧
          (alistLookup ds cn = none → b = zeros (n * ci.datatype.size)))) ∧
    (∃ cP, Conn.data_patch c f ix ds = (.ok (), cP) ∧
      (∀ cn series ci sq, alistLookup ds cn = some series →
        alistLookup cmm cn = some ci → alistLookup sm cn = some sq →
        ∃ b, encodeSeries ci.datatype series = .ok b ∧
          alistLookup ((alistLookup cP.seqMapping f).getD []) cn =
            some { sq with data :=
              (sq.data.take (ix * sq.blockSize) ++ b ++
                sq.data.drop ((ix + n) * sq.blockSize)) }) ∧
      (∀ cn, alistLookup ds cn = none →
        alistLookup ((alistLookup cP.seqMapping f).getD []) cn =
          alistLookup sm cn)) := by
  have hblock : ∀ cn ci sq, alistLookup cmm cn = some ci →
      alistLookup sm cn = some sq →
      ∃ b, blockFor ci ds n cn = .ok b ∧ b.length = n * sq.blockSize ∧
        (∀ series, alistLookup ds cn = some series →
          encodeSeries ci.datatype series = .ok b) ∧
        (alistLookup ds cn = none → b = zeros (n * ci.datatype.size)) := by
    intro cn ci sq hci hsq
    have hmemc : cn ∈ alistKeys cmm :=
      mem_keys_of_alistLookup_isSome cmm cn (by rw [hci]; rfl)
    obtain ⟨ci', hci', hcanon, -⟩ := hfeedcols cn hmemc
    rw [hci] at hci'
    injection hci' with hcie
    subst hcie
    cases hser : alistLookup ds cn with
    | some series =>
        obtain ⟨b, hb⟩ := henc cn series hser ci hci
        refine ⟨b, by unfold blockFor; rw [hser]; exact hb, ?_, ?_, ?_⟩
        · rw [encodeSeries_length ci.datatype hcanon series b hb,
            get_dataset_size_lengths ds n hn (cn, series)
              (alistLookup_mem _ _ _ hser),
            hbs cn ci sq hci hsq]
        · intro series' hser'
          injection hser' with he
          subst he
          exact hb
        · intro hnone
          exact Option.noConfusion hnone
    | none =>
        refine ⟨zeros (n * ci.datatype.size),
          by unfold blockFor; rw [hser], ?_, ?_, fun _ => rfl⟩
        · rw [zeros_length, hbs cn ci sq hci hsq]
        · intro series' hser'
          exact Option.noConfusion hser'
  have hwritten : ∀ (m' : List (String × SeqSt)) cn ci sq b,
      alistLookup cmm cn = some ci → alistLookup sm cn = some sq →
      blockFor ci ds n cn = .ok b → b.length = n * sq.blockSize →
      alistLookup m' cn = some ((Seq.update sq ix b).toOption.getD sq) →
      alistLookup m' cn = some { sq with data :=
        (sq.data.take (ix * sq.blockSize) ++ b ++
          sq.data.drop ((ix + n) * sq.blockSize)) } := by
    intro m' cn ci sq b hci hsq hb hbl hm
    rw [update_inplace sq ix n b (hfault cn sq hsq) (hroom cn sq hsq) hbl] at hm
    exact hm
  constructor
  · unfold Conn.data_save
    rw [hcmm]
    unfold Conn.data_update
    rw [hn]
    try dsimp only
    rw [if_pos hpos]
    try dsimp only
    rw [hcmm]
    try dsimp only
    rw [hsm]
    try dsimp only
    obtain ⟨m', hrun, hout, hin⟩ :=
      updateCols_spec cmm ds n ix (alistKeys cmm) sm hckeys
        (fun cn hmem => by
          obtain ⟨ci, hci, hcanon, hsmS⟩ := hfeedcols cn hmem
          obtain ⟨sq, hsq⟩ := Option.isSome_iff_exists.mp hsmS
          obtain ⟨b, hb, -⟩ := hblock cn ci sq hci hsq
          exact ⟨ci, hci, b, hb⟩)
        (fun cn hmem => (hfeedcols cn hmem).choose_spec.2.2)
    rw [hrun]
    refine ⟨_, rfl, ?_⟩
    intro cn ci sq hci hsq
    have hmemc : cn ∈ alistKeys cmm :=
      mem_keys_of_alistLookup_isSome cmm cn (by rw [hci]; rfl)
    obtain ⟨b, hb, hbl, hbser, hbzero⟩ := hblock cn ci sq hci hsq
    refine ⟨b, ?_, hbser, hbzero⟩
    have hm := hin cn hmemc ci b sq hci hb hsq
    have := hwritten m' cn ci sq b hci hsq hb hbl hm
    try dsimp only
    rw [alistLookup_insert_self]
    exact this
  · unfold Conn.data_patch
    unfold Conn.data_update
    rw [hn]
    try dsimp only
    rw [if_pos hpos]
    try dsimp only
    rw [hcmm]
    try dsimp only
    rw [hsm]
    try dsimp only
    obtain ⟨m', hrun, hout, hin⟩ :=
      updateCols_spec cmm ds n ix (alistKeys ds) sm hdkeys
        (fun cn hmem => by
          obtain ⟨ci, hci, hcanon, hsmS⟩ := hfeedcols cn (hsub cn hmem)
          obtain ⟨sq, hsq⟩ := Option.isSome_iff_exists.mp hsmS
          obtain ⟨b, hb, -⟩ := hblock cn ci sq hci hsq
          exact ⟨ci, hci, b, hb⟩)
        (fun cn hmem => (hfeedcols cn (hsub cn hmem)).choose_spec.2.2)
    rw [hrun]
    refine ⟨_, rfl, ?_, ?_⟩
    · intro cn series ci sq hser hci hsq
      have hmemd : cn ∈ alistKeys ds :=
        mem_keys_of_alistLookup_isSome ds cn (by rw [hser]; rfl)
      obtain ⟨b, hb, hbl, hbser, -⟩ := hblock cn ci sq hci hsq
      refine ⟨b, hbser series hser, ?_⟩
      have hm := hin cn hmemd ci b sq hci hb hsq
      have := hwritten m' cn ci sq b hci hsq hb hbl hm
      try dsimp only
      rw [alistLookup_insert_self]
      exact this
    · intro cn hnone
      have hnm : cn ∉ alistKeys ds := by
        intro hmem
        obtain ⟨series, hser⟩ := Option.isSome_iff_exists.mp
          (alistLookup_isSome_of_mem_keys ds cn hmem)
        rw [hnone] at hser
        exact Option.noConfusion hser
      try dsimp only
      rw [alistLookup_insert_self]
      exact hout cn hnm

/-- A one-feed, one-`Int64`-column connection with one allocated row. -/
def c5Conn : ConnSt :=
  { feedList := ⟨[⟨"f", 1⟩], [("f", 0)]⟩,
    feedMap := [("f", ⟨"f", 1⟩)],
    colListMapping := [("f", ⟨[⟨"x", .Int64⟩], [("x", 0)]⟩)],
    colMapMapping := [("f", [("x", ⟨"x", .Int64⟩)])],
    seqMapping := [("f", [("x", ⟨zeros 8, 8, false⟩)])],
    diskColLists := [],
    diskSeqs := [] }

/-- C5 witness: saving and patching `{x: [I 7]}` at row 0 of a one-row
feed. -/
theorem c5_data_save_patch_frame_witness :
    get_dataset_size [("x", [Dataunit.I 7])] = .ok 1 ∧
    ((∃ cS, Conn.data_save c5Conn "f" 0 [("x", [Dataunit.I 7])] =
        (.ok (), cS) ∧
      (∀ cn ci sq,
        alistLookup [("x", (⟨"x", .Int64⟩ : ColItem))] cn = some ci →
        alistLookup [("x", (⟨zeros 8, 8, false⟩ : SeqSt))] cn = some sq →
        ∃ b,
          alistLookup ((alistLookup cS.seqMapping "f").getD []) cn =
            some { sq with data :=
              (sq.data.take (0 * sq.blockSize) ++ b ++
                sq.data.drop ((0 + 1) * sq.blockSize)) } ∧
          (∀ series, alistLookup [("x", [Dataunit.I 7])] cn = some series →
            encodeSeries ci.datatype series = .ok b) ∧
          (alistLookup [("x", [Dataunit.I 7])] cn = none →
            b = zeros (1 * ci.datatype.size)))) ∧
     (∃ cP, Conn.data_patch c5Conn "f" 0 [("x", [Dataunit.I 7])] =
        (.ok (), cP) ∧
      (∀ cn series ci sq,
        alistLookup [("x", [Dataunit.I 7])] cn = some series →
        alistLookup [("x", (⟨"x", .Int64⟩ : ColItem))] cn = some ci →
        alistLookup [("x", (⟨zeros 8, 8, false⟩ : SeqSt))] cn = some sq →
        ∃ b, encodeSeries ci.datatype series = .ok b ∧
          alistLookup ((alistLookup cP.seqMapping "f").getD []) cn =
            some { sq with data :=
              (sq.data.take (0 * sq.blockSize) ++ b ++
                sq.data.drop ((0 + 1) * sq.blockSize)) }) ∧
      (∀ cn, alistLookup [("x", [Dataunit.I 7])] cn = none →
        alistLookup ((alistLookup cP.seqMapping "f").getD []) cn =
          alistLookup [("x", (⟨zeros 8, 8, false⟩ : SeqSt))] cn))) :=
  ⟨rfl,
   c5_data_save_patch_frame c5Conn "f" [("x", [Dataunit.I 7])]
    [("x", ⟨zeros 8, 8, false⟩)] [("x", ⟨"x", .Int64⟩)] 1 0
    rfl rfl rfl (by decide) (by decide) (by decide)
    (fun cn hmem => hmem)
    (fun cn hmem => by
      have hcn : cn = "x" := by simpa [alistKeys] using hmem
      subst hcn
      exact ⟨⟨"x", .Int64⟩, rfl, rfl, rfl⟩)
    (fun cn series hser ci hci => by
      obtain ⟨hcn, hv⟩ := alistLookup_singleton _ _ _ _ hser
      obtain ⟨-, hci2⟩ := alistLookup_singleton _ _ _ _ hci
      subst hv
      subst hci2
      exact ⟨_, rfl⟩)
    (fun cn sq h => by
      obtain ⟨-, hv⟩ := alistLookup_singleton _ _ _ _ h
      rw [hv])
    (fun cn sq h => by
      obtain ⟨-, hv⟩ := alistLookup_singleton _ _ _ _ h
      rw [hv]
      decide)
    (fun cn ci sq hci hsq => by
      obtain ⟨-, hci2⟩ := alistLookup_singleton _ _ _ _ hci
      obtain ⟨-, hsq2⟩ := alistLookup_singleton _ _ _ _ hsq
      rw [hci2, hsq2]
      rfl)⟩
